import Mathlib

/-
  Verification of the streaming-response normalization and tool-call
  reconstruction engine of the naori-ai repository.

  The embedding works over `List Char` byte/character streams.  Each
  provider's stream processor is translated from its Rust source
  (src/providers/{ollama,anthropic,openai}/client.rs); wire-format structs
  whose serde definitions live in modules absent from src/ are modelled from
  the spec, and carry a doc comment saying so.
-/

namespace Naori

/-- Character strings, as plain character lists so that every operation is
kernel-computable. -/
abbrev Str := List Char

/-- Turn a Lean string literal into the character-list representation. -/
def chars (s : String) : Str := s.data

/-- Wrap-around of Rust `u32` arithmetic (release-mode overflow semantics). -/
def u32 (n : Nat) : Nat := n % 2 ^ 32

/-! ## JSON values and parsing

`serde_json` is an external dependency of the repository.  We model its
value type and its parser on the JSON fragment this development exercises:
null, booleans, integer numbers, strings with the common escapes, arrays
and objects.  The parser, like `serde_json::from_str` / `from_slice`,
succeeds only when the whole input is consumed. -/

/-- JSON values (model of `serde_json::Value` restricted to integer numbers). -/
inductive Json where
  | null : Json
  | bool (b : Bool) : Json
  | num (n : Int) : Json
  | str (s : Str) : Json
  | arr (elems : List Json) : Json
  | obj (fields : List (Str × Json)) : Json

/-- Skip JSON whitespace. -/
def skipWs : Str → Str
  | c :: rest =>
    if c = ' ' ∨ c = '\n' ∨ c = '\t' ∨ c = '\r' then skipWs rest else c :: rest
  | [] => []

/-- Translate a JSON string escape character (the escapes the streams here
use; self-representing ones share a branch). -/
def escChar (e : Char) : Option Char :=
  if e = '"' ∨ e = '\\' ∨ e = '/' then some e
  else if e = 'n' then some '\n'
  else if e = 't' then some '\t'
  else if e = 'r' then some '\r'
  else none

/-- Parse the body of a JSON string literal (after the opening quote),
returning the decoded characters and the remaining input. -/
def parseStrBody : Str → Option (Str × Str)
  | [] => none
  | '"' :: r => some ([], r)
  | '\\' :: e :: r => do
    let c ← escChar e
    let (cs, r') ← parseStrBody r
    some (c :: cs, r')
  | c :: r =>
    if c = '\\' then none
    else do
      let (cs, r') ← parseStrBody r
      some (c :: cs, r')

/-- Split leading decimal digits off the input. -/
def takeDigits : Str → (Str × Str)
  | [] => ([], [])
  | c :: r =>
    if c.isDigit then
      let (ds, r') := takeDigits r
      (c :: ds, r')
    else ([], c :: r)

/-- Numeric value of a digit string. -/
def digitsToNat (ds : Str) : Nat :=
  ds.foldl (fun acc c => 10 * acc + (c.toNat - '0'.toNat)) 0

/-- Parse a JSON integer (optional minus sign followed by digits). -/
def parseNum : Str → Option (Json × Str)
  | '-' :: r =>
    let (ds, r') := takeDigits r
    if ds = [] then none else some (.num (-(digitsToNat ds : Int)), r')
  | s =>
    let (ds, r') := takeDigits s
    if ds = [] then none else some (.num (digitsToNat ds : Int), r')

mutual

/-- Recursive-descent JSON value parser; the fuel bounds nesting and is
always instantiated with more than the input length. -/
def jsonVal : Nat → Str → Option (Json × Str)
  | 0, _ => none
  | f + 1, s =>
    match skipWs s with
    | 'n' :: 'u' :: 'l' :: 'l' :: r => some (.null, r)
    | 't' :: 'r' :: 'u' :: 'e' :: r => some (.bool true, r)
    | 'f' :: 'a' :: 'l' :: 's' :: 'e' :: r => some (.bool false, r)
    | '"' :: r => do
      let (cs, r') ← parseStrBody r
      some (.str cs, r')
    | '[' :: r => jsonElems f r
    | '\x7b' :: r => jsonFields f r
    | rest => parseNum rest

/-- Parse array elements after the opening bracket. -/
def jsonElems : Nat → Str → Option (Json × Str)
  | 0, _ => none
  | f + 1, s =>
    match skipWs s with
    | ']' :: r => some (.arr [], r)
    | rest => do
      let (v, r) ← jsonVal f rest
      match skipWs r with
      | ',' :: r2 => do
        let (tl, r3) ← jsonElems f r2
        match tl with
        | .arr vs => some (.arr (v :: vs), r3)
        | _ => none
      | ']' :: r2 => some (.arr [v], r2)
      | _ => none

/-- Parse object fields after the opening brace. -/
def jsonFields : Nat → Str → Option (Json × Str)
  | 0, _ => none
  | f + 1, s =>
    match skipWs s with
    | '\x7d' :: r => some (.obj [], r)
    | '"' :: r => do
      let (k, r1) ← parseStrBody r
      match skipWs r1 with
      | ':' :: r2 => do
        let (v, r3) ← jsonVal f r2
        match skipWs r3 with
        | ',' :: r4 => do
          let (tl, r5) ← jsonFields f r4
          match tl with
          | .obj fs => some (.obj ((k, v) :: fs), r5)
          | _ => none
        | '\x7d' :: r4 => some (.obj [(k, v)], r4)
        | _ => none
      | _ => none
    | _ => none

end

/-- Parse a complete JSON document; trailing non-whitespace input is an
error, as with `serde_json::from_str`. -/
def Json.parse (s : Str) : Option Json :=
  match jsonVal (s.length + 1) s with
  | some (v, r) => if skipWs r = [] then some v else none
  | none => none

/-- Field lookup on a JSON object. -/
def Json.getField (j : Json) (key : Str) : Option Json :=
  match j with
  | .obj fs => fs.lookup key
  | _ => none

/-- String content of a JSON value, as with `Value::as_str`. -/
def Json.asStr : Json → Option Str
  | .str s => some s
  | _ => none

/-- Boolean content of a JSON value. -/
def Json.asBool : Json → Option Bool
  | .bool b => some b
  | _ => none

/-- Non-negative integer content of a JSON value, as with `Value::as_u64`. -/
def Json.asNat : Json → Option Nat
  | .num n => if n < 0 then none else some n.toNat
  | _ => none

/-! ## Core data types (src/core/types.rs) -/

/-- The function carried by a tool call (src/core/types.rs, `Function`). -/
structure Function where
  name : Str
  arguments : Json

/-- A structured tool call (src/core/types.rs, `ToolCall`). -/
structure ToolCall where
  id : Option Str
  function : Function

/-- A chat message (src/core/types.rs, `Message`). -/
structure Message where
  role : Str
  content : Str
  images : Option (List Str)
  tool_calls : Option (List ToolCall)

/-- Token accounting (src/core/types.rs, `TokenUsage`); the counts are
Rust `u32` values, modelled as naturals below `2^32`. -/
structure TokenUsage where
  prompt_tokens : Option Nat
  completion_tokens : Option Nat
  total_tokens : Option Nat

/-- Constructor `TokenUsage::new` (src/core/types.rs line 43). -/
def TokenUsage.new : TokenUsage := ⟨none, none, none⟩

/-- Constructor `TokenUsage::with_tokens` (src/core/types.rs line 51): stores both
counts and their sum (u32 addition). -/
def TokenUsage.with_tokens (prompt completion : Nat) : TokenUsage :=
  ⟨some prompt, some completion, some (u32 (prompt + completion))⟩

/-- One normalized stream increment (src/core/types.rs, `ChatStreamItem`). -/
structure ChatStreamItem where
  content : Str
  tool_calls : Option (List ToolCall)
  done : Bool
  usage : Option TokenUsage

/-- A stream element as surfaced to the caller: a `ChatStreamItem` or a
stream-level error string (`Result<ChatStreamItem, String>` in the source). -/
inductive SItem where
  | ok (item : ChatStreamItem)
  | fail (msg : Str)

/-- Modelled from the spec: a registered tool (`crate::core::Tool`, whose
definition lives outside src/).  Only the fields the embedded code paths
read are kept; the callback used by `handle_tool_calls` is omitted. -/
structure Tool where
  name : Str
  description : Str
  parameters : Json

/-! ## Deserialization of the shared core types

`ToolCall` / `Function` derive `Deserialize` in src/core/types.rs; the
decoders below mirror those derives: required fields must be present with
the right type, `Option` fields accept absence or `null`. -/

/-- Decode a `Function` value: required string `name`, arbitrary JSON
`arguments`. -/
def decodeFunction (j : Json) : Option Function := do
  let nv ← j.getField (chars "name")
  let name ← nv.asStr
  let args ← j.getField (chars "arguments")
  some ⟨name, args⟩

/-- Decode an optional-string field, as serde does for `Option<String>`:
absent or `null` is `none`, a string is `some`, anything else an error. -/
def decodeOptStrField (j : Json) (key : Str) : Option (Option Str) :=
  match j.getField key with
  | none => some none
  | some .null => some none
  | some (.str s) => some (some s)
  | some _ => none

/-- Decode a `ToolCall`: optional `id`, required `function`. -/
def decodeToolCall (j : Json) : Option ToolCall := do
  let idv ← decodeOptStrField j (chars "id")
  let fv ← j.getField (chars "function")
  let f ← decodeFunction fv
  some ⟨idv, f⟩

/-- Decode an array of tool calls; any malformed element fails the whole
array, as serde does for `Vec<ToolCall>`. -/
def decodeToolCalls (j : Json) : Option (List ToolCall) :=
  match j with
  | .arr xs => xs.mapM decodeToolCall
  | _ => none

/-! ## Ollama wire format

The serde struct `ChatResponse` lives in providers/ollama/mod.rs, which is
absent from src/. -/

/-- Modelled from the spec: the message part of one Ollama line frame
(incremental text plus optional native tool calls), as read by
`chat_response.message.content` / `.message.tool_calls` in
src/providers/ollama/client.rs. -/
structure OllamaMsg where
  content : Str
  tool_calls : Option (List ToolCall)

/-- Modelled from the spec: one line of the Ollama pull-style line protocol —
a JSON object with optional fields for incremental text, a boolean
completion flag, and (on the final object) prompt/completion token counts
(`prompt_eval_count` / `eval_count`). -/
structure ChatResponse where
  message : OllamaMsg
  done : Bool
  prompt_eval_count : Option Nat
  eval_count : Option Nat

/-- Decode the `message` object of an Ollama frame. -/
def decodeOllamaMsg (j : Json) : Option OllamaMsg := do
  let c ← match j.getField (chars "content") with
    | none => some []
    | some v => v.asStr
  let tcs ← match j.getField (chars "tool_calls") with
    | none => some none
    | some .null => some none
    | some v => (decodeToolCalls v).map some
  some ⟨c, tcs⟩

/-- Modelled from the spec: decode one Ollama line frame; every field is
optional (missing text is empty, missing flag is false, missing counts are
absent), and a non-object input is an error. -/
def decodeChatResponse (j : Json) : Option ChatResponse :=
  match j with
  | .obj _ => do
    let msg ← match j.getField (chars "message") with
      | none => some ⟨[], none⟩
      | some m => decodeOllamaMsg m
    let d ← match j.getField (chars "done") with
      | none => some false
      | some v => v.asBool
    let p ← match j.getField (chars "prompt_eval_count") with
      | none => some none
      | some v => (v.asNat).map some
    let e ← match j.getField (chars "eval_count") with
      | none => some none
      | some v => (v.asNat).map some
    some ⟨msg, d, p, e⟩
  | _ => none

/-! ## Anthropic wire format

The serde enums `StreamingEvent` / `Delta` / `ContentBlock` live in
providers/anthropic/types.rs, which is absent from src/. -/

/-- Modelled from the spec: the payload of a `content_block_delta` event —
either an incremental text fragment or an unlabeled tool-argument
fragment. -/
inductive AnthDelta where
  | textDelta (text : Str)
  | inputJsonDelta (pjson : Str)

/-- Modelled from the spec: the event vocabulary of the blank-line-delimited
Anthropic protocol, as matched by the `match event` in
src/providers/anthropic/client.rs lines 292-366. -/
inductive AnthEvent where
  | contentBlockDelta (delta : AnthDelta)
  | contentBlockStartToolUse (id : Str) (name : Str)
  | contentBlockStartOther
  | contentBlockStop
  | messageDelta (usage : Option (Nat × Nat))
  | messageStop
  | ping

/-- Modelled from the spec: decode one Anthropic streaming event from its
JSON payload; an unrecognised event kind fails to decode and is silently
skipped by the processor (`if let Ok(event)`), which has the same effect as
the source's empty catch-all match arm. -/
def decodeAnthEvent (j : Json) : Option AnthEvent := do
  let tv ← j.getField (chars "type")
  let t ← tv.asStr
  if t = chars "content_block_delta" then do
    let d ← j.getField (chars "delta")
    let dtv ← d.getField (chars "type")
    let dt ← dtv.asStr
    if dt = chars "text_delta" then do
      let xv ← d.getField (chars "text")
      let x ← xv.asStr
      some (.contentBlockDelta (.textDelta x))
    else if dt = chars "input_json_delta" then do
      let pv ← d.getField (chars "partial_json")
      let p ← pv.asStr
      some (.contentBlockDelta (.inputJsonDelta p))
    else none
  else if t = chars "content_block_start" then do
    let cb ← j.getField (chars "content_block")
    let cbt ← (← cb.getField (chars "type")).asStr
    if cbt = chars "tool_use" then do
      let idv ← (← cb.getField (chars "id")).asStr
      let nm ← (← cb.getField (chars "name")).asStr
      some (.contentBlockStartToolUse idv nm)
    else some .contentBlockStartOther
  else if t = chars "content_block_stop" then some .contentBlockStop
  else if t = chars "message_delta" then do
    let d ← j.getField (chars "delta")
    match d.getField (chars "usage") with
    | none => some (.messageDelta none)
    | some .null => some (.messageDelta none)
    | some u => do
      let i ← (← u.getField (chars "input_tokens")).asNat
      let o ← (← u.getField (chars "output_tokens")).asNat
      some (.messageDelta (some (i, o)))
  else if t = chars "message_stop" then some .messageStop
  else if t = chars "ping" then some .ping
  else none

/-! ## OpenAI wire format

The serde structs `OpenAIStreamChunk` and friends live in
providers/openai/types.rs, which is absent from src/. -/

/-- Modelled from the spec: one indexed tool-call fragment of an OpenAI
delta — optional id, optional partial name, optional partial
argument-string piece. -/
structure OpenAIToolCallDelta where
  id : Option Str
  name : Option Str
  arguments : Option Str

/-- Modelled from the spec: the delta of one OpenAI choice — an optional
text fragment (an arbitrary JSON value, read with `as_str`) and optional
tool-call fragments. -/
structure OpenAIDelta where
  content : Option Json
  tool_calls : Option (List OpenAIToolCallDelta)

/-- Modelled from the spec: the usage object of the OpenAI protocol; all
three counts are present on the wire and copied verbatim. -/
structure OAIUsage where
  prompt_tokens : Nat
  completion_tokens : Nat
  total_tokens : Nat

/-- Modelled from the spec: one event payload of OpenAI's event-tagged
protocol — a choices array (each choice holding an optional delta) and an
optional usage object. -/
structure OpenAIStreamChunk where
  choices : List (Option OpenAIDelta)
  usage : Option OAIUsage

/-- Decode one tool-call fragment. -/
def decodeOpenAIToolCallDelta (j : Json) : Option OpenAIToolCallDelta := do
  let idv ← decodeOptStrField j (chars "id")
  match j.getField (chars "function") with
  | none => some ⟨idv, none, none⟩
  | some f => do
    let nm ← decodeOptStrField f (chars "name")
    let args ← decodeOptStrField f (chars "arguments")
    some ⟨idv, nm, args⟩

/-- Decode the delta of one choice. -/
def decodeOpenAIDelta (j : Json) : Option OpenAIDelta := do
  let tcs ← match j.getField (chars "tool_calls") with
    | none => some none
    | some .null => some none
    | some (.arr xs) => (xs.mapM decodeOpenAIToolCallDelta).map some
    | some _ => none
  some ⟨j.getField (chars "content"), tcs⟩

/-- Decode one choice (its optional `delta` field). -/
def decodeOpenAIChoice (j : Json) : Option (Option OpenAIDelta) :=
  match j.getField (chars "delta") with
  | none => some none
  | some .null => some none
  | some d => (decodeOpenAIDelta d).map some

/-- Modelled from the spec: decode one OpenAI stream event payload; the
choices array is required, usage is optional (and `null` on most events
when `include_usage` is set). -/
def decodeOpenAIChunk (j : Json) : Option OpenAIStreamChunk := do
  let cs ← match j.getField (chars "choices") with
    | some (.arr xs) => xs.mapM decodeOpenAIChoice
    | _ => none
  let u ← match j.getField (chars "usage") with
    | none => some none
    | some .null => some none
    | some uj => do
      let p ← (← uj.getField (chars "prompt_tokens")).asNat
      let c ← (← uj.getField (chars "completion_tokens")).asNat
      let t ← (← uj.getField (chars "total_tokens")).asNat
      some (some (⟨p, c, t⟩ : OAIUsage))
  some ⟨cs, u⟩

/-! ## Framing utilities -/

/-- Split a character list on a delimiter character, keeping empty pieces —
the behaviour of Rust's `slice::split`. -/
def splitChar (c : Char) : Str → List Str
  | [] => [[]]
  | x :: xs =>
    let r := splitChar c xs
    if x = c then [] :: r
    else
      match r with
      | h :: t => (x :: h) :: t
      | [] => [[x]]

/-- The lines of one chunk as the per-backend decoders iterate them:
`chunk.split(b'\n')` with empty pieces skipped by the explicit
`if line.is_empty() continue`. -/
def chunkLines (chunk : Str) : List Str :=
  (splitChar '\n' chunk).filter (· ≠ [])

/-- Rust `str::lines`: split on newline, without a trailing empty piece when
the string ends in a newline.  (Carriage returns do not occur in the
streams modelled here.) -/
def rustLines (s : Str) : List Str :=
  match s with
  | [] => []
  | _ =>
    let ps := splitChar '\n' s
    if s.getLast? = some '\n' then ps.dropLast else ps

/-- Find the first blank-line separator in the buffer, as
`self.buffer.find("\n\n")` does, returning the event before it and the rest
after it. -/
def extractEvent : Str → Option (Str × Str)
  | [] => none
  | '\n' :: '\n' :: r => some ([], r)
  | x :: xs => (extractEvent xs).map (fun (a, b) => (x :: a, b))

/-- Rust `str::trim` restricted to the whitespace characters occurring
here. -/
def trimStr (s : Str) : Str :=
  ((skipWs ((skipWs s).reverse)).reverse)

/-- Split the input at the first occurrence of `pat`, returning the part
before it and the part after it; `none` when `pat` does not occur. -/
def splitAtSub (pat : Str) : Str → Option (Str × Str)
  | [] => if pat = [] then some ([], []) else none
  | x :: xs =>
    if pat.isPrefixOf (x :: xs) then some ([], (x :: xs).drop pat.length)
    else (splitAtSub pat xs).map (fun (a, b) => (x :: a, b))

/-! ## Fallback tool protocol (modelled from the spec)

`FallbackToolHandler` and `StreamingXmlFilter` live in modules absent from
src/ (the former in src/core, the latter in providers/ollama/utilities.rs);
both are modelled from spec §4.4. -/

/-- Modelled from the spec: the configured opening invocation marker of the
fallback protocol.  The concrete tag text is not in src/; the claims proved
about the filter are parametric in the markers, this constant only
instantiates the Ollama pipeline. -/
def openMarker : Str := chars "<tool_call>"

/-- Modelled from the spec: the configured closing invocation marker. -/
def closeMarker : Str := chars "</tool_call>"

/-- Modelled from the spec: extract the contents of every complete
marker-delimited invocation block, scanning left to right. -/
def extractBlocks (op cl : Str) : Nat → Str → List Str
  | 0, _ => []
  | f + 1, s =>
    match splitAtSub op s with
    | none => []
    | some (_, afterOpen) =>
      match splitAtSub cl afterOpen with
      | none => []
      | some (block, rest) => block :: extractBlocks op cl f rest

/-- Modelled from the spec: `FallbackToolHandler::parse_fallback_tool_calls`
— scan the full raw accumulated text once for complete marker-delimited
blocks, parse each block as a JSON invocation `{name, arguments}`, ignore
malformed blocks, and report `none` when no call was reconstructed. -/
def parse_fallback_tool_calls (text : Str) : Option (List ToolCall) :=
  let blocks := extractBlocks openMarker closeMarker (text.length + 1) text
  let calls := blocks.filterMap (fun b => do
    let j ← Json.parse b
    let nm ← (← j.getField (chars "name")).asStr
    let args := (j.getField (chars "arguments")).getD Json.null
    some (ToolCall.mk none ⟨nm, args⟩))
  if calls.isEmpty then none else some calls

/-- Modelled from the spec: the state of the streaming tag filter.  The
spec's three automaton states `{Outside, InTagOpen, InTagBody}` appear here
as `inTag = false` with empty/nonempty `held` (a partial opening marker
being re-evaluated) and `inTag = true` (`held` is then a partial closing
marker).  `raw` is the internal raw-accumulation buffer retaining the
suppressed span. -/
structure XmlFilter where
  inTag : Bool
  held : Str
  raw : Str

/-- Constructor `StreamingXmlFilter::new`. -/
def XmlFilter.new : XmlFilter := ⟨false, [], []⟩

/-- While outside a tag, re-align the candidate window after a mismatch:
emit leading characters until the window is again a prefix of the opening
marker (or completes it).  Returns (emitted, new window, marker
completed). -/
def settleOpen (op : Str) (em : Str) : Str → Str × Str × Bool
  | [] => if [] = op then (em, [], true) else (em, [], false)
  | h :: t =>
    if h :: t = op then (em, [], true)
    else if (h :: t).isPrefixOf op then (em, h :: t, false)
    else settleOpen op (em ++ [h]) t

/-- While inside a tag, re-align the closing-marker window after a
mismatch; nothing is emitted (the characters are suppressed). -/
def dropToPrefixOf (cl : Str) : Str → Str
  | [] => []
  | h :: t => if (h :: t).isPrefixOf cl then h :: t else dropToPrefixOf cl t

/-- Modelled from the spec: one step of the single-pass character-level
automaton.  Outside a tag characters pass through immediately; once the
opening marker completes, all characters (markers included) are retained in
the raw buffer and suppressed from the output until the closing marker
completes; a partial marker is held, never emitted. -/
def XmlFilter.processChar (op cl : Str) (st : XmlFilter) (c : Char) :
    XmlFilter × Str :=
  if st.inTag then
    let raw' := st.raw ++ [c]
    let cand := st.held ++ [c]
    if cand = cl then (⟨false, [], raw'⟩, [])
    else if cand.isPrefixOf cl then (⟨true, cand, raw'⟩, [])
    else (⟨true, dropToPrefixOf cl cand, raw'⟩, [])
  else
    let (em, held', entered) := settleOpen op [] (st.held ++ [c])
    if entered then (⟨true, [], st.raw ++ op⟩, em)
    else (⟨false, held', st.raw⟩, em)

/-- Run the automaton over a list of characters, concatenating the
emitted output. -/
def XmlFilter.processChars (op cl : Str) (st : XmlFilter) : Str → XmlFilter × Str
  | [] => (st, [])
  | c :: cs =>
    let (st1, e1) := st.processChar op cl c
    let (st2, e2) := st1.processChars op cl cs
    (st2, e1 ++ e2)

/-- Modelled from the spec: `StreamingXmlFilter::process_chunk` — feed one
chunk of raw text through the resumable automaton, returning the filtered
text to display. -/
def XmlFilter.process_chunk (op cl : Str) (st : XmlFilter) (chunk : Str) :
    XmlFilter × Str :=
  st.processChars op cl chunk

/-- Fold the filter over a whole chunk sequence. -/
def filterFold (op cl : Str) (st : XmlFilter) : List Str → XmlFilter × Str
  | [] => (st, [])
  | c :: cs =>
    let (st1, e1) := st.process_chunk op cl c
    let (st2, e2) := filterFold op cl st1 cs
    (st2, e1 ++ e2)

/-- Run the streaming filter over a complete chunked text: the displayed
output, with the held partial marker flushed at end of input (after the
last chunk no further input can complete it). -/
def runFilter (op cl : Str) (chunks : List Str) : Str :=
  let (st, out) := filterFold op cl XmlFilter.new chunks
  out ++ (if st.inTag then [] else st.held)

/-! ## Ollama streaming pipeline

Translated from `send_chat_request_stream_with_options`
(src/providers/ollama/client.rs lines 351-494). -/

/-- The state threaded through the Ollama unfold: the XML filter, the raw
accumulation used for fallback tool detection, and the (set but never
consulted) `stream_done` flag. -/
structure OllamaState where
  xml : XmlFilter
  accumulated_raw : Str
  stream_done : Bool

/-- Initial Ollama stream state (client.rs line 408). -/
def ollamaInit : OllamaState := ⟨XmlFilter.new, [], false⟩

/-- Compute the `TokenUsage` attached to a terminal frame when both counts
are present: prompt, completion and their sum (u32 addition).  This same
construction appears in the Ollama processor (client.rs lines 448-452) and
the Anthropic processor (client.rs lines 345-349). -/
def mkSumUsage (p c : Nat) : TokenUsage :=
  ⟨some p, some c, some (u32 (p + c))⟩

/-- Process one line of an Ollama chunk (client.rs lines 417-471): parse it
as a frame, accumulate raw content, filter the displayed content unless in
debug mode, reconstruct fallback tool calls on the terminal frame, and
attach usage; an unparsable line only logs and is skipped. -/
def ollamaStepLine (fallback debug : Bool) (st : OllamaState) (line : Str) :
    OllamaState × List ChatStreamItem :=
  match Json.parse line >>= decodeChatResponse with
  | none => (st, [])
  | some resp =>
    let tool_calls0 := resp.message.tool_calls
    let raw := resp.message.content
    let accumulated_raw := st.accumulated_raw ++ raw
    let (xml, content) :=
      if !debug then st.xml.process_chunk openMarker closeMarker raw
      else (st.xml, raw)
    let (tool_calls, stream_done) :=
      if resp.done && fallback && tool_calls0.isNone then
        match parse_fallback_tool_calls accumulated_raw with
        | some ts => (some ts, true)
        | none => (tool_calls0, true)
      else (tool_calls0, st.stream_done)
    let usage :=
      if resp.done then
        match resp.prompt_eval_count, resp.eval_count with
        | some p, some c => some (mkSumUsage p c)
        | _, _ => none
      else none
    (⟨xml, accumulated_raw, stream_done⟩,
     [⟨content, tool_calls, resp.done, usage⟩])

/-- Process a list of lines sequentially, threading the state and
concatenating emitted items. -/
def ollamaStepLines (fallback debug : Bool) (st : OllamaState) :
    List Str → OllamaState × List ChatStreamItem
  | [] => (st, [])
  | l :: ls =>
    let (st1, its1) := ollamaStepLine fallback debug st l
    let (st2, its2) := ollamaStepLines fallback debug st1 ls
    (st2, its1 ++ its2)

/-- The emitted items of a line sequence (state threaded internally). -/
def ollamaGoLines (fallback debug : Bool) (st : OllamaState) :
    List Str → List ChatStreamItem
  | [] => []
  | l :: ls =>
    let (st', its) := ollamaStepLine fallback debug st l
    its ++ ollamaGoLines fallback debug st' ls

/-- Process one raw byte chunk (client.rs lines 414-474): split it on
newlines — no carry-over buffer is kept between chunks — skip empty
pieces, and process each line. -/
def ollamaProcessChunk (fallback debug : Bool) (st : OllamaState) (chunk : Str) :
    OllamaState × List ChatStreamItem :=
  ollamaStepLines fallback debug st (chunkLines chunk)

/-- The unfold over the incoming chunks (client.rs lines 407-493): each
chunk yields zero or more items; the stream ends when the byte source
ends. -/
def ollamaGoChunks (fallback debug : Bool) (st : OllamaState) :
    List Str → List ChatStreamItem
  | [] => []
  | c :: cs =>
    let (st', its) := ollamaProcessChunk fallback debug st c
    its ++ ollamaGoChunks fallback debug st' cs

/-- The full Ollama normalized stream on a given chunked byte stream. -/
def ollamaRun (fallback debug : Bool) (chunks : List Str) : List ChatStreamItem :=
  ollamaGoChunks fallback debug ollamaInit chunks

/-! ## Ollama request preparation (fallback injection)

Translated from src/providers/ollama/client.rs lines 357-389. -/

/-- The system message synthesized when no system message exists
(client.rs lines 369-374); `toolContext` stands for the catalog text
produced by `FallbackToolHandler::generate_tool_context`, whose source is
outside src/. -/
def mkFallbackSystem (toolContext : Str) : Message :=
  ⟨chars "system", chars "You are a helpful assistant." ++ toolContext, none, none⟩

/-- Append the tool context to the first message whose role is `system`,
as `iter_mut().find(|msg| msg.role == "system")` does; `none` when no such
message exists. -/
def appendToFirstSystem (ctx : Str) : List Message → Option (List Message)
  | [] => none
  | m :: rest =>
    if m.role = chars "system" then
      some ({ m with content := m.content ++ ctx } :: rest)
    else (appendToFirstSystem ctx rest).map (m :: ·)

/-- The message list actually sent upstream (client.rs lines 357-376): in
fallback mode with registered tools, the catalog is appended to the
existing system message, or a fresh system message is inserted at the
front. -/
def ollama_prepare_messages (toolContext : Str) (is_fallback : Bool)
    (tools : List Tool) (messages : List Message) : List Message :=
  if is_fallback && !tools.isEmpty then
    match appendToFirstSystem toolContext messages with
    | some ms => ms
    | none => mkFallbackSystem toolContext :: messages
  else messages

/-- Whether the native `tools` field is added to the request body
(client.rs lines 384-389): only outside fallback mode and with registered
tools. -/
def ollama_tools_field_included (is_fallback : Bool) (tools : List Tool) : Bool :=
  !is_fallback && !tools.isEmpty

/-! ## The no-stream wrapper

`send_chat_request_no_stream` is the same loop in all three providers
(src/providers/ollama/client.rs lines 319-341, anthropic/client.rs lines
179-200, openai/client.rs lines 236-257): concatenate non-empty content,
let a later `tool_calls` value replace an earlier one, return at the first
terminal item. -/

/-- The provider-shared accumulation loop over the stream's items. -/
def noStreamFold : List SItem → Str → Option (List ToolCall) →
    Except Str (Str × Option (List ToolCall))
  | [], acc, tcs => .ok (acc, tcs)
  | .fail e :: _, _, _ => .error (chars "Stream error: " ++ e)
  | .ok it :: rest, acc, tcs =>
    let acc := if it.content ≠ [] then acc ++ it.content else acc
    let tcs := match it.tool_calls with
      | some tc => some tc
      | none => tcs
    if it.done then .ok (acc, tcs) else noStreamFold rest acc tcs

/-- Method `send_chat_request_no_stream`, as a function of the underlying item
stream. -/
def send_chat_request_no_stream (items : List SItem) :
    Except Str (Str × Option (List ToolCall)) :=
  noStreamFold items [] none

/-! ## Anthropic streaming processor

Translated from `AnthropicStreamProcessor::poll_next`
(src/providers/anthropic/client.rs lines 255-381).  The processor keeps
`accumulating_tools: HashMap<String, (String, String)>`; a `HashMap`'s
iteration order is unspecified, so the embedding keeps the entries as an
insertion-ordered association list and takes the iteration order as an
explicit function parameter `ord`, applied exactly where the source
iterates the map (`values_mut().last()` and `drain()`). -/

/-- One accumulating slot: server-issued id mapped to (name, accumulated
argument string). -/
abbrev AnthTools := List (Str × (Str × Str))

/-- Processor state: the accumulating tool slots and the usage remembered
from a `message_delta` event. -/
structure AnthState where
  accumulating_tools : AnthTools
  usage : Option TokenUsage

/-- Initial Anthropic processor state (client.rs lines 244-251). -/
def anthInit : AnthState := ⟨[], none⟩

/-- Insertion as by `HashMap::insert`: replace the value of an existing key in place, or
add a new entry. -/
def anthInsert (key : Str) (v : Str × Str) : AnthTools → AnthTools
  | [] => [(key, v)]
  | (k, w) :: rest =>
    if k = key then (k, v) :: rest else (k, w) :: anthInsert key v rest

/-- Append an argument fragment to the slot with the given key. -/
def anthAppendArgs (key : Str) (p : Str) : AnthTools → AnthTools
  | [] => []
  | (k, (n, a)) :: rest =>
    if k = key then (k, (n, a ++ p)) :: rest
    else (k, (n, a)) :: anthAppendArgs key p rest

/-- The tool calls completed when a content block stops (client.rs lines
318-332): drain every slot in iteration order, keep those whose
accumulated argument string parses as JSON. -/
def anthropicDrainCompleted (ord : AnthTools → AnthTools) (tools : AnthTools) :
    List ToolCall :=
  (ord tools).filterMap (fun e =>
    (Json.parse e.2.2).map (fun v => ToolCall.mk (some e.1) ⟨e.2.1, v⟩))

/-- Handle one decoded streaming event (client.rs lines 292-367). -/
def anthropicHandleEvent (ord : AnthTools → AnthTools) (st : AnthState) :
    AnthEvent → AnthState × List ChatStreamItem
  | .contentBlockDelta (.textDelta text) =>
    (st, [⟨text, none, false, none⟩])
  | .contentBlockDelta (.inputJsonDelta p) =>
    -- `self.accumulating_tools.values_mut().last()`: the last slot in the
    -- map's iteration order receives the unlabeled fragment.
    (match ((ord st.accumulating_tools).getLast?).map (·.1) with
     | some k => ⟨anthAppendArgs k p st.accumulating_tools, st.usage⟩
     | none => st,
     [])
  | .contentBlockStartToolUse idv nm =>
    (⟨anthInsert idv (nm, []) st.accumulating_tools, st.usage⟩, [])
  | .contentBlockStartOther => (st, [])
  | .contentBlockStop =>
    let completed := anthropicDrainCompleted ord st.accumulating_tools
    (⟨[], st.usage⟩,
     if completed.isEmpty then [] else [⟨[], some completed, false, none⟩])
  | .messageDelta u =>
    (match u with
     | some (i, o) => ⟨st.accumulating_tools, some (mkSumUsage i o)⟩
     | none => st,
     [])
  | .messageStop => (st, [⟨[], none, true, st.usage⟩])
  | .ping => (st, [])

/-- Handle one line of a chunk (client.rs lines 272-369): only `data: `
lines are considered; the `[DONE]` sentinel yields a terminal item; an
undecodable payload is silently skipped. -/
def anthropicHandleLine (ord : AnthTools → AnthTools) (st : AnthState)
    (line : Str) : AnthState × List ChatStreamItem :=
  if (chars "data: ").isPrefixOf line then
    let js := line.drop 6
    if trimStr js = chars "[DONE]" then
      (st, [⟨[], none, true, none⟩])
    else
      match Json.parse js >>= decodeAnthEvent with
      | some ev => anthropicHandleEvent ord st ev
      | none => (st, [])
  else (st, [])

/-- Process a list of lines sequentially, threading the state. -/
def anthropicStepLines (ord : AnthTools → AnthTools) (st : AnthState) :
    List Str → AnthState × List ChatStreamItem
  | [] => (st, [])
  | l :: ls =>
    let (st1, its1) := anthropicHandleLine ord st l
    let (st2, its2) := anthropicStepLines ord st1 ls
    (st2, its1 ++ its2)

/-- Process one raw byte chunk (client.rs lines 270-275): split on
newlines with no carry-over buffer, skipping empty pieces. -/
def anthropicProcessChunk (ord : AnthTools → AnthTools) (st : AnthState)
    (chunk : Str) : AnthState × List ChatStreamItem :=
  anthropicStepLines ord st (chunkLines chunk)

/-- The poll loop over the incoming chunks; the stream ends when the byte
source ends (client.rs line 376). -/
def anthropicGoChunks (ord : AnthTools → AnthTools) (st : AnthState) :
    List Str → List ChatStreamItem
  | [] => []
  | c :: cs =>
    let (st', its) := anthropicProcessChunk ord st c
    its ++ anthropicGoChunks ord st' cs

/-- The full Anthropic normalized stream on a given chunked byte stream,
under iteration order `ord`. -/
def anthropicRun (ord : AnthTools → AnthTools) (chunks : List Str) :
    List ChatStreamItem :=
  anthropicGoChunks ord anthInit chunks

/-! ## OpenAI streaming processor

Translated from `OpenAIStreamProcessor::poll_next`
(src/providers/openai/client.rs lines 292-561).  The two `HashMap`s are
keyed by the `usize` position of the tool call inside each delta
(`enumerate()`), so keys are created in ascending order; the embedding
keeps them as insertion-ordered association lists.  Only the order of the
final `Vec` depends on the map iteration order, and no claim proved here
depends on that order. -/

/-- The `OpenAIStreamProcessor` state (client.rs lines 292-302). -/
structure OpenAIState where
  accumulated_content : Str
  accumulated_tool_calls : List (Nat × ToolCall)
  accumulating_tool_args : List (Nat × Str)
  buffer : Str
  done : Bool
  usage : Option TokenUsage

/-- Initial OpenAI processor state (client.rs lines 305-315). -/
def openaiInit : OpenAIState :=
  ⟨[], [], [], [], false, none⟩

/-- The update `accumulating_tool_args.entry(i).or_insert_with(String::new)` followed
by `push_str`: append to the existing entry or create it. -/
def openaiAppendArgs (i : Nat) (a : Str) :
    List (Nat × Str) → List (Nat × Str)
  | [] => [(i, a)]
  | (k, s) :: rest =>
    if k = i then (k, s ++ a) :: rest else (k, s) :: openaiAppendArgs i a rest

/-- Update the name of the accumulated tool call at key `i`, if present. -/
def openaiSetName (i : Nat) (nm : Str) :
    List (Nat × ToolCall) → List (Nat × ToolCall)
  | [] => []
  | (k, tc) :: rest =>
    if k = i then (k, { tc with function := { tc.function with name := nm } }) :: rest
    else (k, tc) :: openaiSetName i nm rest

/-- Update the id of the accumulated tool call at key `i`, if present. -/
def openaiSetId (i : Nat) (idv : Str) :
    List (Nat × ToolCall) → List (Nat × ToolCall)
  | [] => []
  | (k, tc) :: rest =>
    if k = i then (k, { tc with id := some idv }) :: rest
    else (k, tc) :: openaiSetId i idv rest

/-- Handle one indexed tool-call fragment (client.rs lines 406-443):
create the entry on first sight, append the argument piece, then update
name and id when provided and non-empty. -/
def openaiApplyToolDelta (st : OpenAIState) (i : Nat)
    (tc : OpenAIToolCallDelta) : OpenAIState :=
  let st :=
    if (st.accumulated_tool_calls.lookup i).isSome then st
    else { st with accumulated_tool_calls :=
      st.accumulated_tool_calls ++ [(i, ⟨tc.id, ⟨tc.name.getD [], .null⟩⟩)] }
  let st :=
    match tc.arguments with
    | some a =>
      if a ≠ [] then
        { st with accumulating_tool_args := openaiAppendArgs i a st.accumulating_tool_args }
      else st
    | none => st
  let st :=
    match tc.name with
    | some nm =>
      if nm ≠ [] then
        { st with accumulated_tool_calls := openaiSetName i nm st.accumulated_tool_calls }
      else st
    | none => st
  match tc.id with
  | some idv =>
    if idv ≠ [] then
      { st with accumulated_tool_calls := openaiSetId i idv st.accumulated_tool_calls }
    else st
  | none => st

/-- Fold the tool-call fragments of one delta with their `enumerate()`
indices. -/
def openaiApplyToolDeltas (st : OpenAIState) (i : Nat) :
    List OpenAIToolCallDelta → OpenAIState
  | [] => st
  | tc :: rest => openaiApplyToolDeltas (openaiApplyToolDelta st i tc) (i + 1) rest

/-- Copy the usage object verbatim into the processor state when present
(client.rs lines 385-391). -/
def openaiApplyUsage (st : OpenAIState) (ck : OpenAIStreamChunk) : OpenAIState :=
  match ck.usage with
  | some u =>
    { st with usage := some ⟨some u.prompt_tokens, some u.completion_tokens,
                             some u.total_tokens⟩ }
  | none => st

/-- Apply one decoded event payload (client.rs lines 393-446), updating the
per-poll accumulated content and the has-tool-deltas flag. -/
def openaiApplyChunk (st : OpenAIState) (acc : Str) (ht : Bool)
    (ck : OpenAIStreamChunk) : OpenAIState × Str × Bool :=
  let st := openaiApplyUsage st ck
  match ck.choices.head? with
  | some (some delta) =>
    let (st, acc) :=
      match delta.content with
      | some (.str s) =>
        ({ st with accumulated_content := st.accumulated_content ++ s }, acc ++ s)
      | _ => (st, acc)
    match delta.tool_calls with
    | some tcs => (openaiApplyToolDeltas st 0 tcs, acc, true)
    | none => (st, acc, ht)
  | _ => (st, acc, ht)

/-- Resolve one accumulated tool call at finalization (client.rs lines
358-367 and 532-540): parse the accumulated argument string when it is
non-empty and valid JSON, otherwise keep the call unchanged (its arguments
stay at the initial `null`). -/
def openaiResolve (st : OpenAIState) (e : Nat × ToolCall) : ToolCall :=
  match st.accumulating_tool_args.lookup e.1 with
  | some s =>
    if s ≠ [] then
      match Json.parse s with
      | some v => { e.2 with function := { e.2.function with arguments := v } }
      | none => e.2
    else e.2
  | none => e.2

/-- The tool calls attached to the terminal item: `none` when no slot was
accumulated, otherwise every slot resolved. -/
def openaiFinalize (st : OpenAIState) : Option (List ToolCall) :=
  if st.accumulated_tool_calls.isEmpty then none
  else some (st.accumulated_tool_calls.map (openaiResolve st))

/-- Outcome of processing the buffered events after one chunk arrival. -/
inductive OpenAIChunkOut where
  | emitDone (it : ChatStreamItem) (st : OpenAIState)
  | emitErr (e : Str) (st : OpenAIState)
  | emit (it : ChatStreamItem) (st : OpenAIState)
  | silent (st : OpenAIState)

/-- End of one poll pass without early return (client.rs lines 456-464):
emit the accumulated content when anything arrived, else nothing. -/
def openaiFinishPass (st : OpenAIState) (acc : Str) (ht : Bool) : OpenAIChunkOut :=
  if acc ≠ [] ∨ ht then .emit ⟨acc, none, false, none⟩ st
  else .silent st

/-- Result of processing the lines of one event. -/
inductive OpenAILinesOut where
  | ret (o : OpenAIChunkOut)
  | cont (st : OpenAIState) (acc : Str) (ht : Bool)

/-- Process the lines of one extracted event (client.rs lines 350-453).
The `[DONE]` sentinel returns the terminal item at once and latches the
processor; a JSON parse failure returns a stream error item at once (the
remaining lines of the event, and the content accumulated so far in this
poll, are discarded). -/
def openaiEventLines (st : OpenAIState) (acc : Str) (ht : Bool) :
    List Str → OpenAILinesOut
  | [] => .cont st acc ht
  | l :: ls =>
    if (chars "data: ").isPrefixOf l then
      let js := l.drop 6
      if js = chars "[DONE]" then
        .ret (.emitDone ⟨[], openaiFinalize st, true, st.usage⟩
          { st with done := true })
      else
        match Json.parse js >>= decodeOpenAIChunk with
        | some ck =>
          let (st, acc, ht) := openaiApplyChunk st acc ht ck
          openaiEventLines st acc ht ls
        | none => .ret (.emitErr (chars "JSON parse error") st)
    else openaiEventLines st acc ht ls

/-- Process all complete events in the buffer (client.rs lines 345-454);
the fuel is instantiated above the buffer length, and each iteration
consumes at least the two delimiter characters. -/
def openaiEvents : Nat → OpenAIState → Str → Bool → OpenAIChunkOut
  | 0, st, acc, ht => openaiFinishPass st acc ht
  | f + 1, st, acc, ht =>
    match extractEvent st.buffer with
    | none => openaiFinishPass st acc ht
    | some (ev, rest) =>
      match openaiEventLines { st with buffer := rest } acc ht (rustLines ev) with
      | .ret o => o
      | .cont st' acc' ht' => openaiEvents f st' acc' ht'

/-- Handle the arrival of one byte chunk (client.rs lines 332-469): append
it to the carry-over buffer and process every complete event. -/
def openaiProcessChunk (st : OpenAIState) (chunk : Str) : OpenAIChunkOut :=
  let st := { st with buffer := st.buffer ++ chunk }
  openaiEvents (st.buffer.length + 1) st [] false

/-- Append only the argument pieces of the fragments of one delta, with
their `enumerate()` indices (the salvage pass of client.rs lines
488-495). -/
def openaiDrainArgsFold (st : OpenAIState) (i : Nat) :
    List OpenAIToolCallDelta → OpenAIState
  | [] => st
  | tc :: rest =>
    let st := match tc.arguments with
      | some a =>
        if a ≠ [] then
          { st with accumulating_tool_args :=
            openaiAppendArgs i a st.accumulating_tool_args }
        else st
      | none => st
    openaiDrainArgsFold st (i + 1) rest

/-- First end-of-stream salvage pass over one leftover line (client.rs
lines 473-507): only tool-argument pieces are appended; no entries are
created in `accumulated_tool_calls` and no content is emitted. -/
def openaiDrainArgsLine (st : OpenAIState) (l : Str) : OpenAIState :=
  if (chars "data: ").isPrefixOf l then
    let js := l.drop 6
    if js = chars "[DONE]" then st
    else if js = [] then st
    else
      match Json.parse js >>= decodeOpenAIChunk with
      | some ck =>
        match ck.choices.head? with
        | some (some delta) =>
          match delta.tool_calls with
          | some tcs => openaiDrainArgsFold st 0 tcs
          | none => st
        | _ => st
      | none => st
  else st

/-- Second end-of-stream salvage pass over one leftover line (client.rs
lines 509-527): only the usage object is taken. -/
def openaiDrainUsageLine (st : OpenAIState) (l : Str) : OpenAIState :=
  if (chars "data: ").isPrefixOf l then
    let js := l.drop 6
    if js = chars "[DONE]" then st
    else if js = [] then st
    else
      match Json.parse js >>= decodeOpenAIChunk with
      | some ck => openaiApplyUsage st ck
      | none => st
  else st

/-- End of the byte source (client.rs lines 471-553): salvage tool
arguments and usage from the leftover buffer, then emit the terminal
item. -/
def openaiDrain (st : OpenAIState) : ChatStreamItem :=
  let st := (rustLines st.buffer).foldl openaiDrainArgsLine st
  let st := (rustLines st.buffer).foldl openaiDrainUsageLine st
  ⟨[], openaiFinalize st, true, st.usage⟩

/-- The poll loop over the incoming chunks.  Once `done` is latched
(client.rs lines 326-328) every further poll returns `None`, so the
remaining chunks are never read; when the byte source ends without a
`[DONE]` sentinel, the drain emits the terminal item. -/
def openaiGo (st : OpenAIState) : List Str → List SItem
  | [] => if st.done then [] else [.ok (openaiDrain st)]
  | c :: cs =>
    if st.done then []
    else
      match openaiProcessChunk st c with
      | .emitDone it st' => .ok it :: openaiGo st' cs
      | .emitErr e st' => .fail e :: openaiGo st' cs
      | .emit it st' => .ok it :: openaiGo st' cs
      | .silent st' => openaiGo st' cs

/-- The full OpenAI normalized stream on a given chunked byte stream. -/
def openaiRun (chunks : List Str) : List SItem :=
  openaiGo openaiInit chunks

/-! ## Observations used by the claim statements -/

/-- The concatenated content of an item sequence, in arrival order. -/
def concatContents : List ChatStreamItem → Str
  | [] => []
  | it :: rest => it.content ++ concatContents rest

/-- The concatenated content of the successful items of a surfaced
sequence. -/
def sItemsContent : List SItem → Str
  | [] => []
  | .ok it :: rest => it.content ++ sItemsContent rest
  | .fail _ :: rest => sItemsContent rest

/-- Whether a surfaced element is a terminal item. -/
def sItemDone : SItem → Bool
  | .ok it => it.done
  | .fail _ => false

/-- Number of terminal items in an item sequence. -/
def doneCount (l : List ChatStreamItem) : Nat := l.countP (·.done)

/-- Number of terminal items among the successful elements of a surfaced
sequence. -/
def okDoneCount (l : List SItem) : Nat := l.countP sItemDone

/-- The items up to and including the first terminal item (all of them
when no terminal item occurs). -/
def takeToDone : List ChatStreamItem → List ChatStreamItem
  | [] => []
  | it :: rest => if it.done then [it] else it :: takeToDone rest

/-- The last non-absent `tool_calls` value of an item sequence, starting
from `init`. -/
def lastToolCallsFrom (init : Option (List ToolCall)) :
    List ChatStreamItem → Option (List ToolCall)
  | [] => init
  | it :: rest =>
    lastToolCallsFrom (match it.tool_calls with
      | some tc => some tc
      | none => init) rest

/-! ## Claim C1: chunk-boundary invariance

The Ollama decoder splits each chunk on newlines with no carry-over buffer
(client.rs lines 414-421), so a frame split across two chunks is dropped
and the emitted content depends on the split points. -/

/-- C1: the claim fails on the code.  One valid Ollama byte stream,
delivered whole, yields the content `Hi`; the same bytes split mid-frame
into two chunks yield no content at all, because the decoder keeps no
carry-over and both fragments fail to parse.  (The spec's chunk-boundary
invariance requires identical output for every split.) -/
theorem claim_C1_chunk_split_changes_output :
    ([chars "\x7b\"message\":\x7b\"content\":\"Hi\"\x7d,\"done\":false\x7d\n"] :
        List Str).flatten =
      ([chars "\x7b\"message\":\x7b\"con",
        chars "tent\":\"Hi\"\x7d,\"done\":false\x7d\n"] : List Str).flatten
    ∧ concatContents (ollamaRun false false
        [chars "\x7b\"message\":\x7b\"content\":\"Hi\"\x7d,\"done\":false\x7d\n"]) =
      chars "Hi"
    ∧ concatContents (ollamaRun false false
        [chars "\x7b\"message\":\x7b\"con",
         chars "tent\":\"Hi\"\x7d,\"done\":false\x7d\n"]) = [] :=
  ⟨rfl, rfl, rfl⟩

/-! ## Claim C6: routing of unlabeled argument fragments

The Anthropic processor routes an unlabeled `input_json_delta` to
`accumulating_tools.values_mut().last()` (client.rs lines 303-308) — the
last slot in the `HashMap`'s iteration order, which is unspecified and
unrelated to insertion order.  Under an iteration order that yields the
first-opened slot last (possible for `std::collections::HashMap`), the
fragment lands on the first-opened slot, contradicting the spec's
last-opened-wins tie-break. -/

/-- C6: with two open slots `t1` (opened first) and `t2`, the same event
stream routes the unlabeled fragment to `t1` under the reversed iteration
order and to `t2` under the insertion order: the destination of the
fragment depends on the map's unspecified iteration order, not on which
slot was opened most recently. -/
theorem claim_C6_hashmap_order_routes_fragment :
    anthropicRun List.reverse
      [chars "data: \x7b\"type\":\"content_block_start\",\"index\":0,\"content_block\":\x7b\"type\":\"tool_use\",\"id\":\"t1\",\"name\":\"f\",\"input\":\x7b\x7d\x7d\x7d\ndata: \x7b\"type\":\"content_block_start\",\"index\":1,\"content_block\":\x7b\"type\":\"tool_use\",\"id\":\"t2\",\"name\":\"g\",\"input\":\x7b\x7d\x7d\x7d\ndata: \x7b\"type\":\"content_block_delta\",\"index\":1,\"delta\":\x7b\"type\":\"input_json_delta\",\"partial_json\":\"\x7b\x7d\"\x7d\x7d\ndata: \x7b\"type\":\"content_block_stop\",\"index\":1\x7d\ndata: \x7b\"type\":\"message_stop\"\x7d\n"] =
      [⟨[], some [⟨some (chars "t1"), ⟨chars "f", .obj []⟩⟩], false, none⟩,
       ⟨[], none, true, none⟩]
    ∧ anthropicRun id
      [chars "data: \x7b\"type\":\"content_block_start\",\"index\":0,\"content_block\":\x7b\"type\":\"tool_use\",\"id\":\"t1\",\"name\":\"f\",\"input\":\x7b\x7d\x7d\x7d\ndata: \x7b\"type\":\"content_block_start\",\"index\":1,\"content_block\":\x7b\"type\":\"tool_use\",\"id\":\"t2\",\"name\":\"g\",\"input\":\x7b\x7d\x7d\x7d\ndata: \x7b\"type\":\"content_block_delta\",\"index\":1,\"delta\":\x7b\"type\":\"input_json_delta\",\"partial_json\":\"\x7b\x7d\"\x7d\x7d\ndata: \x7b\"type\":\"content_block_stop\",\"index\":1\x7d\ndata: \x7b\"type\":\"message_stop\"\x7d\n"] =
      [⟨[], some [⟨some (chars "t2"), ⟨chars "g", .obj []⟩⟩], false, none⟩,
       ⟨[], none, true, none⟩] :=
  ⟨rfl, rfl⟩

/-! ## Claim C7: usage arithmetic -/

/-- C7 counterexample: the OpenAI processor copies the three usage counts
verbatim from the wire (client.rs lines 385-390), so a wire usage object
`{prompt 5, completion 2, total 100}` reaches the terminal item unchanged,
with `total ≠ prompt + completion`. -/
theorem claim_C7_counterexample :
    openaiRun [chars "data: \x7b\"choices\":[],\"usage\":\x7b\"prompt_tokens\":5,\"completion_tokens\":2,\"total_tokens\":100\x7d\x7d\n\ndata: [DONE]\n\n"] =
      [.ok ⟨[], none, true, some ⟨some 5, some 2, some 100⟩⟩]
    ∧ (100 : Nat) ≠ 5 + 2 :=
  ⟨rfl, by decide⟩

/-- C7 (amended): `TokenUsage::with_tokens` and the shared sum construction
used by the Ollama and Anthropic processors store `total = prompt +
completion` (u32 addition, exact below `2^32`); the OpenAI processor copies
all three counts verbatim from the wire, so there the invariant holds only
when the wire values already satisfy it. -/
theorem claim_C7_usage_arithmetic :
    (∀ p c : Nat, p + c < 2 ^ 32 →
      (TokenUsage.with_tokens p c).prompt_tokens = some p
      ∧ (TokenUsage.with_tokens p c).completion_tokens = some c
      ∧ (TokenUsage.with_tokens p c).total_tokens = some (p + c))
    ∧ (∀ p c : Nat, p + c < 2 ^ 32 →
      (mkSumUsage p c).prompt_tokens = some p
      ∧ (mkSumUsage p c).completion_tokens = some c
      ∧ (mkSumUsage p c).total_tokens = some (p + c))
    ∧ (∀ (st : OpenAIState) (ck : OpenAIStreamChunk) (u : OAIUsage),
      ck.usage = some u →
      (openaiApplyUsage st ck).usage =
        some ⟨some u.prompt_tokens, some u.completion_tokens, some u.total_tokens⟩) := by
  refine ⟨fun p c h => ⟨rfl, rfl, ?_⟩, fun p c h => ⟨rfl, rfl, ?_⟩,
    fun st ck u h => ?_⟩
  · have h2 : p + c < 4294967296 := by norm_num at h; exact h
    simp [TokenUsage.with_tokens, u32, Nat.mod_eq_of_lt h2]
  · have h2 : p + c < 4294967296 := by norm_num at h; exact h
    simp [mkSumUsage, u32, Nat.mod_eq_of_lt h2]
  · simp [openaiApplyUsage, h]

/-- C7 witness: the theorem applied at prompt 5, completion 2, and at a
concrete wire usage object. -/
theorem claim_C7_witness :
    (TokenUsage.with_tokens 5 2).total_tokens = some (5 + 2)
    ∧ (mkSumUsage 5 2).total_tokens = some (5 + 2)
    ∧ (openaiApplyUsage openaiInit ⟨[], some ⟨5, 2, 100⟩⟩).usage =
      some ⟨some 5, some 2, some 100⟩ :=
  ⟨(claim_C7_usage_arithmetic.1 5 2 (by decide)).2.2,
   (claim_C7_usage_arithmetic.2.1 5 2 (by decide)).2.2,
   claim_C7_usage_arithmetic.2.2 openaiInit ⟨[], some ⟨5, 2, 100⟩⟩ ⟨5, 2, 100⟩ rfl⟩

/-! ## Claim C3: invalid accumulated tool arguments -/

/-- C3 counterexample: at stream completion the OpenAI processor does not
drop a slot whose accumulated argument string is invalid JSON — it keeps
the call with its arguments left at the initial `null` (client.rs lines
530-546 push every accumulated call unconditionally). -/
theorem claim_C3_counterexample :
    openaiRun [chars "data: \x7b\"choices\":[\x7b\"delta\":\x7b\"tool_calls\":[\x7b\"id\":\"t1\",\"function\":\x7b\"name\":\"f\",\"arguments\":\"not json\"\x7d\x7d]\x7d\x7d]\x7d\n\ndata: [DONE]\n\n"] =
      [.ok ⟨[], some [⟨some (chars "t1"), ⟨chars "f", Json.null⟩⟩], true, none⟩]
    ∧ Json.parse (chars "not json") = none :=
  ⟨rfl, rfl⟩

/-! ## Claim C10: the no-stream wrapper -/

/-- The fold returns the accumulated pair at the first terminal item. -/
theorem noStreamFold_ok (its : List ChatStreamItem) : ∀ acc tcs,
    noStreamFold (its.map .ok) acc tcs =
      .ok (acc ++ concatContents (takeToDone its),
           lastToolCallsFrom tcs (takeToDone its)) := by
  induction its with
  | nil =>
    intro acc tcs
    simp [noStreamFold, takeToDone, concatContents, lastToolCallsFrom]
  | cons it rest ih =>
    intro acc tcs
    by_cases hd : it.done
    · by_cases hc : it.content = [] <;>
        simp [noStreamFold, takeToDone, concatContents, lastToolCallsFrom, hd, hc]
    · by_cases hc : it.content = [] <;>
        simp [noStreamFold, takeToDone, concatContents, lastToolCallsFrom, hd, hc, ih,
          List.append_assoc]

/-- C10: for every provider (the three `send_chat_request_no_stream`
loops are identical), the wrapper returns the concatenation, in arrival
order, of the contents of the items up to and including the first
terminal item, paired with the last non-absent `tool_calls` value seen
there — a later value replaces an earlier one. -/
theorem claim_C10_no_stream_accumulation (its : List ChatStreamItem) :
    send_chat_request_no_stream (its.map .ok) =
      .ok (concatContents (takeToDone its),
           lastToolCallsFrom none (takeToDone its)) := by
  simpa [send_chat_request_no_stream] using noStreamFold_ok its [] none

/-! ## Claim C8: fallback tool-catalog injection -/

/-- When no message has the system role, the in-place append finds
nothing. -/
theorem appendToFirstSystem_eq_none (ctx : Str) :
    ∀ ms : List Message, (∀ m ∈ ms, m.role ≠ chars "system") →
    appendToFirstSystem ctx ms = none := by
  intro ms
  induction ms with
  | nil => intro _; rfl
  | cons m rest ih =>
    intro h
    have hm : m.role ≠ chars "system" := h m (by simp)
    simp [appendToFirstSystem, hm, ih (fun x hx => h x (by simp [hx]))]

/-- The in-place append rewrites exactly the first system-role message. -/
theorem appendToFirstSystem_eq_some (ctx : Str) :
    ∀ (pre : List Message) (m : Message) (post : List Message),
    (∀ x ∈ pre, x.role ≠ chars "system") → m.role = chars "system" →
    appendToFirstSystem ctx (pre ++ m :: post) =
      some (pre ++ { m with content := m.content ++ ctx } :: post) := by
  intro pre
  induction pre with
  | nil => intro m post _ hm; simp [appendToFirstSystem, hm]
  | cons x rest ih =>
    intro m post hpre hm
    have hx : x.role ≠ chars "system" := hpre x (by simp)
    simp [appendToFirstSystem, hx,
      ih m post (fun y hy => hpre y (by simp [hy])) hm]

/-- C8: in fallback mode with at least one registered tool, the upstream
request appends the textual tool catalog to the first existing system
message — all other messages unchanged — or inserts a fresh system message
carrying the catalog at the front when none exists; and the native `tools`
field is never included in fallback mode. -/
theorem claim_C8_fallback_injection (ctx : Str) (tools : List Tool)
    (msgs : List Message) (htools : tools ≠ []) :
    ollama_tools_field_included true tools = false
    ∧ ((∀ m ∈ msgs, m.role ≠ chars "system") →
        ollama_prepare_messages ctx true tools msgs =
          mkFallbackSystem ctx :: msgs)
    ∧ (∀ (pre : List Message) (m : Message) (post : List Message),
        msgs = pre ++ m :: post → (∀ x ∈ pre, x.role ≠ chars "system") →
        m.role = chars "system" →
        ollama_prepare_messages ctx true tools msgs =
          pre ++ { m with content := m.content ++ ctx } :: post) := by
  have hne : tools.isEmpty = false := by
    cases tools with
    | nil => exact absurd rfl htools
    | cons t ts => rfl
  refine ⟨rfl, fun h => ?_, fun pre m post hsplit hpre hm => ?_⟩
  · simp [ollama_prepare_messages, hne, appendToFirstSystem_eq_none ctx msgs h]
  · simp [ollama_prepare_messages, hne, hsplit,
      appendToFirstSystem_eq_some ctx pre m post hpre hm]

/-- C8 witness: a catalog injected into a two-message conversation whose
first message is the system message. -/
theorem claim_C8_witness :
    ollama_tools_field_included true [⟨chars "t", chars "d", Json.null⟩] = false
    ∧ ollama_prepare_messages (chars " CATALOG") true
        [⟨chars "t", chars "d", Json.null⟩]
        [⟨chars "system", chars "S.", none, none⟩,
         ⟨chars "user", chars "hi", none, none⟩] =
      [⟨chars "system", chars "S." ++ chars " CATALOG", none, none⟩,
       ⟨chars "user", chars "hi", none, none⟩] := by
  have h := claim_C8_fallback_injection (chars " CATALOG")
    [⟨chars "t", chars "d", Json.null⟩]
    [⟨chars "system", chars "S.", none, none⟩,
     ⟨chars "user", chars "hi", none, none⟩] (by simp)
  exact ⟨h.1, h.2.2 [] ⟨chars "system", chars "S.", none, none⟩
    [⟨chars "user", chars "hi", none, none⟩] rfl (by simp) rfl⟩

/-! ## Structural lemmas about the OpenAI processor -/

/-- Applying one tool-call fragment touches only the two accumulation
maps. -/
theorem openaiApplyToolDelta_preserved (st : OpenAIState) (i : Nat)
    (tc : OpenAIToolCallDelta) :
    (openaiApplyToolDelta st i tc).done = st.done
    ∧ (openaiApplyToolDelta st i tc).buffer = st.buffer
    ∧ (openaiApplyToolDelta st i tc).usage = st.usage := by
  obtain ⟨tid, tname, targs⟩ := tc
  unfold openaiApplyToolDelta
  cases tid <;> cases tname <;> cases targs <;> simp <;> split_ifs <;> simp

/-- The latch of the fragment fold. -/
theorem openaiApplyToolDeltas_done (l : List OpenAIToolCallDelta) :
    ∀ (st : OpenAIState) (i : Nat),
    (openaiApplyToolDeltas st i l).done = st.done := by
  induction l with
  | nil => intro st i; rfl
  | cons tc rest ih =>
    intro st i
    exact (ih (openaiApplyToolDelta st i tc) (i + 1)).trans
      (openaiApplyToolDelta_preserved st i tc).1

/-- The buffer of the fragment fold. -/
theorem openaiApplyToolDeltas_buffer (l : List OpenAIToolCallDelta) :
    ∀ (st : OpenAIState) (i : Nat),
    (openaiApplyToolDeltas st i l).buffer = st.buffer := by
  induction l with
  | nil => intro st i; rfl
  | cons tc rest ih =>
    intro st i
    exact (ih (openaiApplyToolDelta st i tc) (i + 1)).trans
      (openaiApplyToolDelta_preserved st i tc).2.1

/-- Copying the usage does not touch the latch. -/
theorem openaiApplyUsage_done (st : OpenAIState) (ck : OpenAIStreamChunk) :
    (openaiApplyUsage st ck).done = st.done := by
  cases h : ck.usage <;> simp [openaiApplyUsage, h]

/-- Copying the usage does not touch the buffer. -/
theorem openaiApplyUsage_buffer (st : OpenAIState) (ck : OpenAIStreamChunk) :
    (openaiApplyUsage st ck).buffer = st.buffer := by
  cases h : ck.usage <;> simp [openaiApplyUsage, h]

/-- Applying one event payload touches neither the latch nor the buffer. -/
theorem openaiApplyChunk_preserved (st : OpenAIState) (acc : Str) (ht : Bool)
    (ck : OpenAIStreamChunk) :
    (openaiApplyChunk st acc ht ck).1.done = st.done
    ∧ (openaiApplyChunk st acc ht ck).1.buffer = st.buffer := by
  constructor <;>
  · unfold openaiApplyChunk
    repeat' split
    all_goals
      simp_all [openaiApplyToolDeltas_done, openaiApplyToolDeltas_buffer,
        openaiApplyUsage_done, openaiApplyUsage_buffer]

/-- The possible outcomes of processing the lines of one event, with the
state of the terminal latch in each. -/
theorem openaiEventLines_shape (ls : List Str) :
    ∀ (st : OpenAIState) (acc : Str) (ht : Bool),
    (∃ st' acc' ht', openaiEventLines st acc ht ls = .cont st' acc' ht'
      ∧ st'.done = st.done)
    ∨ (∃ e st', openaiEventLines st acc ht ls = .ret (.emitErr e st')
      ∧ st'.done = st.done)
    ∨ (∃ it st', openaiEventLines st acc ht ls = .ret (.emitDone it st')
      ∧ st'.done = true ∧ it.done = true) := by
  induction ls with
  | nil =>
    intro st acc ht
    exact .inl ⟨st, acc, ht, rfl, rfl⟩
  | cons l rest ih =>
    intro st acc ht
    by_cases hp : (chars "data: ").isPrefixOf l
    · by_cases hd : l.drop 6 = chars "[DONE]"
      · refine .inr (.inr ⟨⟨[], openaiFinalize st, true, st.usage⟩,
          { st with done := true }, ?_, rfl, rfl⟩)
        simp [openaiEventLines, hp, hd]
      · cases hj : Json.parse (l.drop 6) >>= decodeOpenAIChunk with
        | none =>
          refine .inr (.inl ⟨chars "JSON parse error", st, ?_, rfl⟩)
          simp [openaiEventLines, hp, hd, hj]
        | some ck =>
          obtain ⟨⟨st2, acc2, ht2⟩, hck⟩ : ∃ t, openaiApplyChunk st acc ht ck = t :=
            ⟨_, rfl⟩
          have hpres := (openaiApplyChunk_preserved st acc ht ck).1
          rw [hck] at hpres
          have heq : openaiEventLines st acc ht (l :: rest) =
              openaiEventLines st2 acc2 ht2 rest := by
            simp [openaiEventLines, hp, hd, hj, hck]
          rcases ih st2 acc2 ht2 with ⟨st', acc', ht', h1, h2⟩ |
            ⟨e, st', h1, h2⟩ | ⟨it, st', h1, h2, h3⟩
          · exact .inl ⟨st', acc', ht', heq.trans h1, h2.trans hpres⟩
          · exact .inr (.inl ⟨e, st', heq.trans h1, h2.trans hpres⟩)
          · exact .inr (.inr ⟨it, st', heq.trans h1, h2, h3⟩)
    · have heq : openaiEventLines st acc ht (l :: rest) =
          openaiEventLines st acc ht rest := by
        simp [openaiEventLines, hp]
      rcases ih st acc ht with ⟨st', acc', ht', h1, h2⟩ |
        ⟨e, st', h1, h2⟩ | ⟨it, st', h1, h2, h3⟩
      · exact .inl ⟨st', acc', ht', heq.trans h1, h2⟩
      · exact .inr (.inl ⟨e, st', heq.trans h1, h2⟩)
      · exact .inr (.inr ⟨it, st', heq.trans h1, h2, h3⟩)

/-- The possible outcomes of one poll pass over the buffered events, for a
processor that has not yet latched. -/
theorem openaiEvents_shape (f : Nat) :
    ∀ (st : OpenAIState) (acc : Str) (ht : Bool), st.done = false →
    (∃ it st', openaiEvents f st acc ht = .emit it st'
      ∧ it.done = false ∧ it.tool_calls = none ∧ st'.done = false)
    ∨ (∃ st', openaiEvents f st acc ht = .silent st' ∧ st'.done = false)
    ∨ (∃ e st', openaiEvents f st acc ht = .emitErr e st' ∧ st'.done = false)
    ∨ (∃ it st', openaiEvents f st acc ht = .emitDone it st'
      ∧ st'.done = true ∧ it.done = true) := by
  induction f with
  | zero =>
    intro st acc ht hdone
    by_cases hfp : acc ≠ [] ∨ ht = true
    · refine .inl ⟨⟨acc, none, false, none⟩, st, ?_, rfl, rfl, hdone⟩
      simp only [openaiEvents, openaiFinishPass]
      rw [if_pos hfp]
    · refine .inr (.inl ⟨st, ?_, hdone⟩)
      simp only [openaiEvents, openaiFinishPass]
      rw [if_neg hfp]
  | succ f ih =>
    intro st acc ht hdone
    cases hev : extractEvent st.buffer with
    | none =>
      by_cases hfp : acc ≠ [] ∨ ht = true
      · refine .inl ⟨⟨acc, none, false, none⟩, st, ?_, rfl, rfl, hdone⟩
        simp only [openaiEvents, hev, openaiFinishPass]
        rw [if_pos hfp]
      · refine .inr (.inl ⟨st, ?_, hdone⟩)
        simp only [openaiEvents, hev, openaiFinishPass]
        rw [if_neg hfp]
    | some p =>
      obtain ⟨ev, rest⟩ := p
      have hsh := openaiEventLines_shape (rustLines ev)
        { st with buffer := rest } acc ht
      rcases hsh with ⟨st', acc', ht', h1, h2⟩ | ⟨e, st', h1, h2⟩ |
        ⟨it, st', h1, h2, h3⟩
      · have heq : openaiEvents (f + 1) st acc ht =
            openaiEvents f st' acc' ht' := by
          simp [openaiEvents, hev, h1]
        have hd2 : st'.done = false := h2.trans hdone
        rcases ih st' acc' ht' hd2 with ⟨it2, st2, g1, g2, g3, g4⟩ |
          ⟨st2, g1, g2⟩ | ⟨e2, st2, g1, g2⟩ | ⟨it2, st2, g1, g2, g3⟩
        · exact .inl ⟨it2, st2, heq.trans g1, g2, g3, g4⟩
        · exact .inr (.inl ⟨st2, heq.trans g1, g2⟩)
        · exact .inr (.inr (.inl ⟨e2, st2, heq.trans g1, g2⟩))
        · exact .inr (.inr (.inr ⟨it2, st2, heq.trans g1, g2, g3⟩))
      · refine .inr (.inr (.inl ⟨e, st', ?_, h2.trans hdone⟩))
        simp [openaiEvents, hev, h1]
      · refine .inr (.inr (.inr ⟨it, st', ?_, h2, h3⟩))
        simp [openaiEvents, hev, h1]

/-- The latch: once `done` is set, every poll yields nothing. -/
theorem openaiGo_latched (st : OpenAIState) (chunks : List Str)
    (h : st.done = true) : openaiGo st chunks = [] := by
  cases chunks <;> simp [openaiGo, h]

/-- The drain item is terminal. -/
theorem openaiDrain_done (st : OpenAIState) : (openaiDrain st).done = true := rfl

/-- The outcome shape of one chunk arrival, for an unlatched processor. -/
theorem openaiProcessChunk_shape (st : OpenAIState) (c : Str)
    (hdone : st.done = false) :
    (∃ it st', openaiProcessChunk st c = .emit it st'
      ∧ it.done = false ∧ it.tool_calls = none ∧ st'.done = false)
    ∨ (∃ st', openaiProcessChunk st c = .silent st' ∧ st'.done = false)
    ∨ (∃ e st', openaiProcessChunk st c = .emitErr e st' ∧ st'.done = false)
    ∨ (∃ it st', openaiProcessChunk st c = .emitDone it st'
      ∧ st'.done = true ∧ it.done = true) := by
  unfold openaiProcessChunk
  exact openaiEvents_shape _ { st with buffer := st.buffer ++ c } [] false hdone

/-! ## Claim C4: attachment of completed tool calls -/

/-- C4 counterexample: the Anthropic processor attaches the completed
call set to a dedicated non-terminal item when a content block stops
(client.rs lines 334-341), and its terminal item carries no tool calls —
the completed set is not attached to the `done = true` item. -/
theorem claim_C4_counterexample :
    anthropicRun id
      [chars "data: \x7b\"type\":\"content_block_start\",\"index\":0,\"content_block\":\x7b\"type\":\"tool_use\",\"id\":\"t1\",\"name\":\"get_weather\",\"input\":\x7b\x7d\x7d\x7d\ndata: \x7b\"type\":\"content_block_delta\",\"index\":0,\"delta\":\x7b\"type\":\"input_json_delta\",\"partial_json\":\"\x7b\x7d\"\x7d\x7d\ndata: \x7b\"type\":\"content_block_stop\",\"index\":0\x7d\ndata: \x7b\"type\":\"message_stop\"\x7d\n"] =
      [⟨[], some [⟨some (chars "t1"), ⟨chars "get_weather", .obj []⟩⟩], false, none⟩,
       ⟨[], none, true, none⟩] := by
  set_option maxRecDepth 10000 in rfl

/-- An item satisfies the OpenAI half of the amended C4 when, if it is a
successful non-terminal item, it carries no tool calls. -/
def nonTerminalNoTools : SItem → Prop
  | .ok it => it.done = false → it.tool_calls = none
  | .fail _ => True

/-- Every non-terminal OpenAI item carries no tool calls. -/
theorem openaiGo_nonterminal (chunks : List Str) :
    ∀ st : OpenAIState, st.done = false →
    (openaiGo st chunks).Forall nonTerminalNoTools := by
  induction chunks with
  | nil =>
    intro st h
    simp [openaiGo, h, List.Forall]
    intro hd
    exact absurd hd (by simp [openaiDrain_done])
  | cons c cs ih =>
    intro st h
    rcases openaiProcessChunk_shape st c h with
      ⟨it, st', heq, h1, h2, h3⟩ | ⟨st', heq, h1⟩ |
      ⟨e, st', heq, h1⟩ | ⟨it, st', heq, h1, h2⟩
    · simpa [openaiGo, h, heq, List.forall_cons, nonTerminalNoTools, h2]
        using ih st' h3
    · simpa [openaiGo, h, heq] using ih st' h1
    · simpa [openaiGo, h, heq, List.forall_cons, nonTerminalNoTools]
        using ih st' h1
    · simp [openaiGo, h, heq, List.forall_cons, nonTerminalNoTools,
        openaiGo_latched st' cs h1, h2]

/-- Every item of one Anthropic event satisfies the terminal half: a
terminal item never carries tool calls. -/
theorem anthropicHandleEvent_terminal (ord : AnthTools → AnthTools)
    (st : AnthState) (ev : AnthEvent) :
    ((anthropicHandleEvent ord st ev).2).Forall
      (fun it => it.done = true → it.tool_calls = none) := by
  cases ev with
  | contentBlockDelta d =>
    cases d with
    | textDelta t => simp [anthropicHandleEvent, List.forall_cons, List.Forall]
    | inputJsonDelta p => simp [anthropicHandleEvent, List.Forall]
  | contentBlockStartToolUse idv nm => simp [anthropicHandleEvent, List.Forall]
  | contentBlockStartOther => simp [anthropicHandleEvent, List.Forall]
  | contentBlockStop =>
    by_cases hc : (anthropicDrainCompleted ord st.accumulating_tools).isEmpty <;>
      simp [anthropicHandleEvent, hc, List.Forall]
  | messageDelta u => cases u <;> simp [anthropicHandleEvent, List.Forall]
  | messageStop => simp [anthropicHandleEvent, List.Forall]
  | ping => simp [anthropicHandleEvent, List.Forall]

/-- Every item of one Anthropic line satisfies the terminal half. -/
theorem anthropicHandleLine_terminal (ord : AnthTools → AnthTools)
    (st : AnthState) (l : Str) :
    ((anthropicHandleLine ord st l).2).Forall
      (fun it => it.done = true → it.tool_calls = none) := by
  unfold anthropicHandleLine
  by_cases hp : (chars "data: ").isPrefixOf l
  · by_cases hd : trimStr (l.drop 6) = chars "[DONE]"
    · simp [hp, hd, List.Forall]
    · cases hj : Json.parse (l.drop 6) >>= decodeAnthEvent with
      | none => simp [hp, hd, hj, List.Forall]
      | some ev => simpa [hp, hd, hj] using anthropicHandleEvent_terminal ord st ev
  · simp [hp, List.Forall]

/-- Every item of an Anthropic line sequence satisfies the terminal half. -/
theorem anthropicStepLines_terminal (ord : AnthTools → AnthTools) (ls : List Str) :
    ∀ st : AnthState,
    ((anthropicStepLines ord st ls).2).Forall
      (fun it => it.done = true → it.tool_calls = none) := by
  induction ls with
  | nil => intro st; simp [anthropicStepLines, List.Forall]
  | cons l rest ih =>
    intro st
    have h1 := anthropicHandleLine_terminal ord st l
    have h2 := ih (anthropicHandleLine ord st l).1
    rw [List.forall_iff_forall_mem] at h1 h2 ⊢
    intro x hx
    simp only [anthropicStepLines] at hx
    rcases List.mem_append.mp hx with hx1 | hx2
    · exact h1 x hx1
    · exact h2 x hx2

/-- Every item of the Anthropic chunk stream satisfies the terminal half. -/
theorem anthropicGoChunks_terminal (ord : AnthTools → AnthTools)
    (chunks : List Str) :
    ∀ st : AnthState,
    (anthropicGoChunks ord st chunks).Forall
      (fun it => it.done = true → it.tool_calls = none) := by
  induction chunks with
  | nil => intro st; simp [anthropicGoChunks, List.Forall]
  | cons c cs ih =>
    intro st
    have h1 := anthropicStepLines_terminal ord (chunkLines c) st
    have h2 := ih (anthropicProcessChunk ord st c).1
    rw [List.forall_iff_forall_mem] at h1 h2 ⊢
    intro x hx
    simp only [anthropicGoChunks] at hx
    rcases List.mem_append.mp hx with hx1 | hx2
    · exact h1 x hx1
    · exact h2 x hx2

/-- Copying the usage does not touch the accumulated tool calls. -/
theorem openaiApplyUsage_calls (st : OpenAIState) (ck : OpenAIStreamChunk) :
    (openaiApplyUsage st ck).accumulated_tool_calls =
      st.accumulated_tool_calls := by
  cases h : ck.usage <;> simp [openaiApplyUsage, h]

/-- The argument salvage fold touches only the argument map. -/
theorem openaiDrainArgsFold_calls (l : List OpenAIToolCallDelta) :
    ∀ (st : OpenAIState) (i : Nat),
    (openaiDrainArgsFold st i l).accumulated_tool_calls =
      st.accumulated_tool_calls := by
  induction l with
  | nil => intro st i; rfl
  | cons tc rest ih =>
    intro st i
    rw [openaiDrainArgsFold, ih]
    cases htc : tc.arguments with
    | none => rfl
    | some a => by_cases ha : a = [] <;> simp [htc, ha]

/-- The first salvage pass creates no tool-call entries. -/
theorem openaiDrainArgsLine_calls (st : OpenAIState) (l : Str) :
    (openaiDrainArgsLine st l).accumulated_tool_calls =
      st.accumulated_tool_calls := by
  unfold openaiDrainArgsLine
  by_cases hp : (chars "data: ").isPrefixOf l
  · by_cases hd : l.drop 6 = chars "[DONE]"
    · simp [hp, hd]
    · by_cases he : l.drop 6 = ([] : Str)
      · simp [hp, hd, he]
      · cases hj : Json.parse (l.drop 6) >>= decodeOpenAIChunk with
        | none =>
          have hj2 : (Json.parse (l.drop 6)).bind decodeOpenAIChunk = none := hj
          simp [hp, hd, he, hj, hj2]
        | some ck =>
          have hj2 : (Json.parse (l.drop 6)).bind decodeOpenAIChunk = some ck := hj
          cases hc : ck.choices.head? with
          | none => simp [hp, hd, he, hj, hj2, hc]
          | some o =>
            cases o with
            | none => simp [hp, hd, he, hj, hj2, hc]
            | some delta =>
              cases ht : delta.tool_calls with
              | none => simp [hp, hd, he, hj, hj2, hc, ht]
              | some tcs =>
                simp [hp, hd, he, hj, hj2, hc, ht, openaiDrainArgsFold_calls]
  · simp [hp]

/-- The second salvage pass creates no tool-call entries. -/
theorem openaiDrainUsageLine_calls (st : OpenAIState) (l : Str) :
    (openaiDrainUsageLine st l).accumulated_tool_calls =
      st.accumulated_tool_calls := by
  unfold openaiDrainUsageLine
  by_cases hp : (chars "data: ").isPrefixOf l
  · by_cases hd : l.drop 6 = chars "[DONE]"
    · simp [hp, hd]
    · by_cases he : l.drop 6 = ([] : Str)
      · simp [hp, hd, he]
      · cases hj : Json.parse (l.drop 6) >>= decodeOpenAIChunk with
        | none =>
          have hj2 : (Json.parse (l.drop 6)).bind decodeOpenAIChunk = none := hj
          simp [hp, hd, he, hj, hj2]
        | some ck =>
          have hj2 : (Json.parse (l.drop 6)).bind decodeOpenAIChunk = some ck := hj
          simp [hp, hd, he, hj, hj2, openaiApplyUsage_calls]
  · simp [hp]

/-- Folding the first salvage pass preserves the tool-call map. -/
theorem openaiDrainArgsFoldl_calls (ls : List Str) :
    ∀ st : OpenAIState,
    ((ls.foldl openaiDrainArgsLine st).accumulated_tool_calls =
      st.accumulated_tool_calls) := by
  induction ls with
  | nil => intro st; rfl
  | cons l rest ih =>
    intro st
    rw [List.foldl_cons, ih, openaiDrainArgsLine_calls]

/-- Folding the second salvage pass preserves the tool-call map. -/
theorem openaiDrainUsageFoldl_calls (ls : List Str) :
    ∀ st : OpenAIState,
    ((ls.foldl openaiDrainUsageLine st).accumulated_tool_calls =
      st.accumulated_tool_calls) := by
  induction ls with
  | nil => intro st; rfl
  | cons l rest ih =>
    intro st
    rw [List.foldl_cons, ih, openaiDrainUsageLine_calls]

/-- C4 (amended): the OpenAI processor never puts tool calls on a
non-terminal item; its terminal item carries `tool_calls: none` exactly
when no slot was accumulated, and a non-empty completed set when slots
were accumulated.  The Anthropic processor emits completed calls on a
non-terminal item at content-block stop, and its terminal item never
carries tool calls. -/
theorem claim_C4_tool_call_attachment :
    (∀ chunks : List Str, (openaiRun chunks).Forall nonTerminalNoTools)
    ∧ (∀ (ord : AnthTools → AnthTools) (chunks : List Str),
        (anthropicRun ord chunks).Forall
          (fun it => it.done = true → it.tool_calls = none))
    ∧ (∀ st : OpenAIState, st.accumulated_tool_calls = [] →
        openaiFinalize st = none ∧ (openaiDrain st).tool_calls = none)
    ∧ (∀ st : OpenAIState, st.accumulated_tool_calls ≠ [] →
        ∃ l, (openaiDrain st).tool_calls = some l ∧ l ≠ []) := by
  refine ⟨fun chunks => openaiGo_nonterminal chunks openaiInit rfl,
    fun ord chunks => anthropicGoChunks_terminal ord chunks anthInit,
    fun st h => ⟨by simp [openaiFinalize, h], ?_⟩, fun st h => ?_⟩
  · unfold openaiDrain
    simp [openaiFinalize, openaiDrainUsageFoldl_calls,
      openaiDrainArgsFoldl_calls, h]
  · unfold openaiDrain
    simp only [openaiFinalize, openaiDrainUsageFoldl_calls,
      openaiDrainArgsFoldl_calls]
    rw [if_neg (by simpa [List.isEmpty_iff] using h)]
    exact ⟨_, rfl, by simpa using h⟩

/-- C4 witness: the drain of a processor with no accumulated slot attaches
no tool calls, and the drain of a processor with one slot attaches a
non-empty set. -/
theorem claim_C4_witness :
    (openaiDrain openaiInit).tool_calls = none
    ∧ ∃ l, (openaiDrain
        { openaiInit with accumulated_tool_calls :=
            [(0, ToolCall.mk none ⟨chars "f", Json.null⟩)] }).tool_calls =
      some l ∧ l ≠ [] :=
  ⟨(claim_C4_tool_call_attachment.2.2.1 openaiInit rfl).2,
   claim_C4_tool_call_attachment.2.2.2
     { openaiInit with accumulated_tool_calls :=
         [(0, ToolCall.mk none ⟨chars "f", Json.null⟩)] } (by simp)⟩

/-! ## Claim C5: locality of frame parse failures -/

/-- The items of a line sequence are the second component of the state
threading. -/
theorem ollamaStepLines_snd (fallback debug : Bool) (ls : List Str) :
    ∀ st, (ollamaStepLines fallback debug st ls).2 =
      ollamaGoLines fallback debug st ls := by
  induction ls with
  | nil => intro st; rfl
  | cons l rest ih =>
    intro st
    simp only [ollamaStepLines, ollamaGoLines, ih]

/-- Items of a concatenated line sequence decompose at the boundary. -/
theorem ollamaGoLines_append (fallback debug : Bool) (a : List Str) :
    ∀ (b : List Str) (st : OllamaState),
    ollamaGoLines fallback debug st (a ++ b) =
      (ollamaStepLines fallback debug st a).2 ++
        ollamaGoLines fallback debug (ollamaStepLines fallback debug st a).1 b := by
  induction a with
  | nil => intro b st; simp [ollamaStepLines]
  | cons l rest ih =>
    intro b st
    simp only [List.cons_append, ollamaGoLines, ollamaStepLines,
      List.append_eq, ih, List.append_assoc]

/-- The chunk-level Ollama stream equals the processing of the flattened
line sequence: the decoder keeps no state between lines other than the
explicitly threaded one. -/
theorem ollamaGoChunks_flat (fallback debug : Bool) (chunks : List Str) :
    ∀ st, ollamaGoChunks fallback debug st chunks =
      ollamaGoLines fallback debug st ((chunks.map chunkLines).flatten) := by
  induction chunks with
  | nil => intro st; rfl
  | cons c cs ih =>
    intro st
    simp only [ollamaGoChunks, ollamaProcessChunk, List.map_cons,
      List.flatten_cons, ollamaGoLines_append, ollamaStepLines_snd, ih]

/-- C5 (amended): for the Ollama line decoder a parse failure is fully
local — the offending line is skipped and every other frame decodes and
emits exactly as if the bad line were absent; and the chunk-level stream
is the line-level stream of the flattened chunks.  (For the OpenAI
decoder the failure is surfaced as a non-terminating error item and
frames still buffered when the source ends contribute no content; see the
counterexample.) -/
theorem claim_C5_parse_failure_locality :
    (∀ (fallback debug : Bool) (st : OllamaState) (pre post : List Str)
        (bad : Str), Json.parse bad >>= decodeChatResponse = none →
      ollamaGoLines fallback debug st (pre ++ bad :: post) =
        ollamaGoLines fallback debug st (pre ++ post))
    ∧ (∀ (fallback debug : Bool) (chunks : List Str),
        ollamaRun fallback debug chunks =
          ollamaGoLines fallback debug ollamaInit ((chunks.map chunkLines).flatten)) := by
  constructor
  · intro fallback debug st pre post bad hbad
    induction pre generalizing st with
    | nil => simp [ollamaGoLines, ollamaStepLine, hbad]
    | cons l rest ih =>
      simp only [List.cons_append, ollamaGoLines, List.append_eq, ih]
  · intro fallback debug chunks
    exact ollamaGoChunks_flat fallback debug chunks ollamaInit

/-- C5 witness: a bad line between two good frames changes nothing, and
the chunk/line correspondence at a concrete split stream. -/
theorem claim_C5_witness :
    ollamaGoLines false false ollamaInit
      [chars "\x7b\"message\":\x7b\"content\":\"a\"\x7d\x7d", chars "bad",
       chars "\x7b\"message\":\x7b\"content\":\"b\"\x7d\x7d"] =
      ollamaGoLines false false ollamaInit
        [chars "\x7b\"message\":\x7b\"content\":\"a\"\x7d\x7d",
         chars "\x7b\"message\":\x7b\"content\":\"b\"\x7d\x7d"]
    ∧ ollamaRun false false [chars "\x7b\"message\":\x7b\"content\":\"a\"\x7d\x7d\n"] =
      ollamaGoLines false false ollamaInit
        (([chars "\x7b\"message\":\x7b\"content\":\"a\"\x7d\x7d\n"].map chunkLines).flatten) :=
  ⟨claim_C5_parse_failure_locality.1 false false ollamaInit
      [chars "\x7b\"message\":\x7b\"content\":\"a\"\x7d\x7d"]
      [chars "\x7b\"message\":\x7b\"content\":\"b\"\x7d\x7d"]
      (chars "bad") rfl,
   claim_C5_parse_failure_locality.2 false false
      [chars "\x7b\"message\":\x7b\"content\":\"a\"\x7d\x7d\n"]⟩

/-- C5 counterexample: in the OpenAI processor a parse failure is not
fully local as the claim states.  With an unparsable line followed by a
decodable content frame in the final chunk, the error pass abandons the
buffer; at source end the drain only salvages tool arguments and usage,
so the subsequent frame's content `X` is never emitted — while the same
stream without the bad line emits `X`. -/
theorem claim_C5_counterexample :
    openaiRun [chars "data: bad\n\ndata: \x7b\"choices\":[\x7b\"delta\":\x7b\"content\":\"X\"\x7d\x7d]\x7d\n\n"] =
      [.fail (chars "JSON parse error"), .ok ⟨[], none, true, none⟩]
    ∧ openaiRun [chars "data: \x7b\"choices\":[\x7b\"delta\":\x7b\"content\":\"X\"\x7d\x7d]\x7d\n\n"] =
      [.ok ⟨chars "X", none, false, none⟩, .ok ⟨[], none, true, none⟩]
    ∧ sItemsContent (openaiRun
        [chars "data: bad\n\ndata: \x7b\"choices\":[\x7b\"delta\":\x7b\"content\":\"X\"\x7d\x7d]\x7d\n\n"]) = []
    ∧ sItemsContent (openaiRun
        [chars "data: \x7b\"choices\":[\x7b\"delta\":\x7b\"content\":\"X\"\x7d\x7d]\x7d\n\n"]) = chars "X" := by
  refine ⟨?_, ?_, ?_, ?_⟩ <;> set_option maxRecDepth 10000 in rfl

/-! ## Claim C2: uniqueness and finality of the terminal item -/

/-- C2 counterexample: the Ollama processor has no terminal latch — every
frame with `done: true` yields its own terminal item, so a byte stream
containing two terminal frames produces two `done = true` items. -/
theorem claim_C2_counterexample :
    doneCount (ollamaRun false false
      [chars "\x7b\"message\":\x7b\"content\":\"\"\x7d,\"done\":true\x7d\n\x7b\"message\":\x7b\"content\":\"\"\x7d,\"done\":true\x7d\n"]) = 2 := by
  set_option maxRecDepth 10000 in rfl

/-- The decoded frames of a line sequence. -/
def ollamaFrames (ls : List Str) : List ChatResponse :=
  ls.filterMap (fun l => Json.parse l >>= decodeChatResponse)

/-- Each decoded Ollama frame yields exactly one item carrying the frame's
completion flag. -/
theorem ollamaGoLines_dones (fallback debug : Bool) (ls : List Str) :
    ∀ st, (ollamaGoLines fallback debug st ls).map (·.done) =
      (ollamaFrames ls).map (·.done) := by
  induction ls with
  | nil => intro st; rfl
  | cons l rest ih =>
    intro st
    cases hj : Json.parse l >>= decodeChatResponse with
    | none =>
      have hj2 : (Json.parse l).bind decodeChatResponse = none := hj
      simp [ollamaGoLines, ollamaStepLine, hj, hj2, ollamaFrames,
        List.filterMap_cons, ih]
    | some resp =>
      have hj2 : (Json.parse l).bind decodeChatResponse = some resp := hj
      simp [ollamaGoLines, ollamaStepLine, hj, hj2, ollamaFrames,
        List.filterMap_cons, ih]

/-- An Ollama stream whose decoded frames end with the single terminal
frame has exactly one terminal item, and it is last. -/
theorem ollamaRun_terminal (fallback debug : Bool) (chunks : List Str)
    (falses : List Bool)
    (hmap : (ollamaFrames ((chunks.map chunkLines).flatten)).map (·.done) =
      falses ++ [true])
    (hfalse : ∀ b ∈ falses, b = false) :
    doneCount (ollamaRun fallback debug chunks) = 1
    ∧ (ollamaRun fallback debug chunks).getLast?.map (·.done) = some true := by
  have hrun : ollamaRun fallback debug chunks =
      ollamaGoLines fallback debug ollamaInit ((chunks.map chunkLines).flatten) :=
    ollamaGoChunks_flat fallback debug chunks ollamaInit
  have hdones : (ollamaRun fallback debug chunks).map (·.done) = falses ++ [true] := by
    rw [hrun, ollamaGoLines_dones]; exact hmap
  constructor
  · have h1 : doneCount (ollamaRun fallback debug chunks) =
        ((ollamaRun fallback debug chunks).map (·.done)).countP (fun b => b) := by
      rw [List.countP_map]; rfl
    rw [doneCount] at h1 ⊢
    rw [h1, hdones, List.countP_append]
    have h0 : falses.countP (fun b => b) = 0 := by
      rw [List.countP_eq_zero]
      intro b hb
      simp [hfalse b hb]
    simp [h0]
  · have h2 := List.getLast?_map (fun it : ChatStreamItem => it.done)
      (ollamaRun fallback debug chunks)
    rw [hdones, List.getLast?_concat] at h2
    exact h2.symm

/-- Whether an Anthropic line is a terminal frame (the `[DONE]` sentinel or
a `message_stop` event). -/
def anthTerminalLine (l : Str) : Bool :=
  (chars "data: ").isPrefixOf l &&
    (decide (trimStr (l.drop 6) = chars "[DONE]") ||
     (match Json.parse (l.drop 6) >>= decodeAnthEvent with
      | some .messageStop => true
      | _ => false))

/-- A non-terminal Anthropic line emits only non-terminal items. -/
theorem anthropicHandleLine_nonterminal (ord : AnthTools → AnthTools)
    (st : AnthState) (l : Str) (h : anthTerminalLine l = false) :
    ∀ it ∈ (anthropicHandleLine ord st l).2, it.done = false := by
  intro it hit
  unfold anthropicHandleLine at hit
  by_cases hp : (chars "data: ").isPrefixOf l
  · by_cases hd : trimStr (l.drop 6) = chars "[DONE]"
    · simp [anthTerminalLine, hp, hd] at h
    · cases hj : Json.parse (l.drop 6) >>= decodeAnthEvent with
      | none => simp [hp, hd, hj] at hit
      | some ev =>
        cases ev with
        | contentBlockDelta d =>
          cases d <;> simp_all [hp, hd, hj, anthropicHandleEvent]
        | contentBlockStartToolUse idv nm => simp_all [hp, hd, hj, anthropicHandleEvent]
        | contentBlockStartOther => simp_all [hp, hd, hj, anthropicHandleEvent]
        | contentBlockStop =>
          by_cases hc : (anthropicDrainCompleted ord st.accumulating_tools).isEmpty <;>
            simp_all [hp, hd, hj, anthropicHandleEvent, hc]
        | messageDelta u => cases u <;> simp_all [hp, hd, hj, anthropicHandleEvent]
        | messageStop => simp [anthTerminalLine, hp, hd, hj] at h
        | ping => simp_all [hp, hd, hj, anthropicHandleEvent]
  · simp [hp] at hit

/-- A terminal Anthropic line emits exactly one item, and it is terminal. -/
theorem anthropicHandleLine_terminal_item (ord : AnthTools → AnthTools)
    (st : AnthState) (l : Str) (h : anthTerminalLine l = true) :
    ∃ u, (anthropicHandleLine ord st l).2 = [⟨[], none, true, u⟩] := by
  unfold anthropicHandleLine
  by_cases hp : (chars "data: ").isPrefixOf l
  · by_cases hd : trimStr (l.drop 6) = chars "[DONE]"
    · exact ⟨none, by simp [hp, hd]⟩
    · cases hj : Json.parse (l.drop 6) >>= decodeAnthEvent with
      | none => simp [anthTerminalLine, hp, hd, hj] at h
      | some ev =>
        cases ev with
        | contentBlockDelta d => cases d <;> simp [anthTerminalLine, hp, hd, hj] at h
        | contentBlockStartToolUse idv nm => simp [anthTerminalLine, hp, hd, hj] at h
        | contentBlockStartOther => simp [anthTerminalLine, hp, hd, hj] at h
        | contentBlockStop => simp [anthTerminalLine, hp, hd, hj] at h
        | messageDelta u => simp [anthTerminalLine, hp, hd, hj] at h
        | messageStop =>
          exact ⟨st.usage, by simp [hp, hd, hj, anthropicHandleEvent]⟩
        | ping => simp [anthTerminalLine, hp, hd, hj] at h
  · simp [anthTerminalLine, hp] at h

/-- A line sequence of non-terminal lines closed by one terminal line
yields exactly one terminal item, and it is last. -/
theorem anthropicStepLines_terminal_last (ord : AnthTools → AnthTools)
    (ls : List Str) (lt : Str) :
    ∀ st, (∀ l ∈ ls, anthTerminalLine l = false) → anthTerminalLine lt = true →
    doneCount ((anthropicStepLines ord st (ls ++ [lt])).2) = 1
    ∧ ((anthropicStepLines ord st (ls ++ [lt])).2).getLast?.map (·.done) =
      some true := by
  induction ls with
  | nil =>
    intro st _ hlt
    obtain ⟨u, hu⟩ := anthropicHandleLine_terminal_item ord st lt hlt
    simp [anthropicStepLines, hu, doneCount]
  | cons l rest ih =>
    intro st hls hlt
    have h1 := anthropicHandleLine_nonterminal ord st l (hls l (by simp))
    have h2 := ih (anthropicHandleLine ord st l).1
      (fun x hx => hls x (by simp [hx])) hlt
    have hne : (anthropicStepLines ord (anthropicHandleLine ord st l).1
        (rest ++ [lt])).2 ≠ [] := by
      intro hnil
      rw [hnil] at h2
      simp [doneCount] at h2
    have hstep : (anthropicStepLines ord st ((l :: rest) ++ [lt])).2 =
        (anthropicHandleLine ord st l).2 ++
          (anthropicStepLines ord (anthropicHandleLine ord st l).1
            (rest ++ [lt])).2 := by
      simp [anthropicStepLines]
    rw [hstep]
    constructor
    · have h0 : ((anthropicHandleLine ord st l).2).countP (·.done) = 0 := by
        rw [List.countP_eq_zero]
        intro it hit
        simp [h1 it hit]
      simp only [doneCount, List.countP_append, h0] at h2 ⊢
      omega
    · rw [List.getLast?_append_of_ne_nil _ hne]
      exact h2.2

/-- Items of a concatenated Anthropic line sequence decompose at the
boundary. -/
theorem anthropicStepLines_append (ord : AnthTools → AnthTools) (a : List Str) :
    ∀ (b : List Str) (st : AnthState),
    anthropicStepLines ord st (a ++ b) =
      ((anthropicStepLines ord (anthropicStepLines ord st a).1 b).1,
       (anthropicStepLines ord st a).2 ++
         (anthropicStepLines ord (anthropicStepLines ord st a).1 b).2) := by
  induction a with
  | nil => intro b st; simp [anthropicStepLines]
  | cons l rest ih =>
    intro b st
    simp only [List.cons_append, anthropicStepLines, List.append_eq, ih,
      List.append_assoc]

/-- The chunk-level Anthropic stream equals the processing of the
flattened line sequence. -/
theorem anthropicGoChunks_flat (ord : AnthTools → AnthTools) (chunks : List Str) :
    ∀ st, anthropicGoChunks ord st chunks =
      (anthropicStepLines ord st ((chunks.map chunkLines).flatten)).2 := by
  induction chunks with
  | nil => intro st; rfl
  | cons c cs ih =>
    intro st
    simp only [anthropicGoChunks, anthropicProcessChunk, List.map_cons,
      List.flatten_cons, anthropicStepLines_append, ih]

/-- The OpenAI processor emits exactly one terminal item, and it is last,
for every input byte stream. -/
theorem openaiGo_terminal (chunks : List Str) :
    ∀ st : OpenAIState, st.done = false →
    okDoneCount (openaiGo st chunks) = 1
    ∧ (openaiGo st chunks).getLast?.map sItemDone = some true := by
  induction chunks with
  | nil =>
    intro st h
    simp [openaiGo, h, okDoneCount, sItemDone, openaiDrain_done]
  | cons c cs ih =>
    intro st h
    rcases openaiProcessChunk_shape st c h with
      ⟨it, st', heq, h1, h2, h3⟩ | ⟨st', heq, h1⟩ |
      ⟨e, st', heq, h1⟩ | ⟨it, st', heq, h1, h2⟩
    · have hih := ih st' h3
      have hne : openaiGo st' cs ≠ [] := by
        intro hnil
        rw [hnil] at hih
        simp [okDoneCount] at hih
      have hgo : openaiGo st (c :: cs) = [SItem.ok it] ++ openaiGo st' cs := by
        simp [openaiGo, h, heq]
      rw [hgo]
      constructor
      · simp only [okDoneCount, List.countP_append] at hih ⊢
        simp [sItemDone, h1, hih.1]
      · rw [List.getLast?_append_of_ne_nil _ hne]
        exact hih.2
    · have hih := ih st' h1
      have hgo : openaiGo st (c :: cs) = openaiGo st' cs := by
        simp [openaiGo, h, heq]
      rw [hgo]
      exact hih
    · have hih := ih st' h1
      have hne : openaiGo st' cs ≠ [] := by
        intro hnil
        rw [hnil] at hih
        simp [okDoneCount] at hih
      have hgo : openaiGo st (c :: cs) = [SItem.fail e] ++ openaiGo st' cs := by
        simp [openaiGo, h, heq]
      rw [hgo]
      constructor
      · simp only [okDoneCount, List.countP_append] at hih ⊢
        simp [sItemDone, hih.1]
      · rw [List.getLast?_append_of_ne_nil _ hne]
        exact hih.2
    · have hgo : openaiGo st (c :: cs) = [SItem.ok it] ++ openaiGo st' cs := by
        simp [openaiGo, h, heq]
      rw [hgo, openaiGo_latched st' cs h1]
      simp [okDoneCount, sItemDone, h2]

/-- C2 (amended): the OpenAI stream emits exactly one terminal item, always
last, for every input byte stream (the `done` latch enforces it); the
Ollama and Anthropic processors emit one terminal item per terminal frame
without latching, so for them the guarantee holds exactly when the byte
stream carries a single terminal frame as its last frame. -/
theorem claim_C2_terminal_uniqueness :
    (∀ chunks : List Str, okDoneCount (openaiRun chunks) = 1
      ∧ (openaiRun chunks).getLast?.map sItemDone = some true)
    ∧ (∀ (fallback debug : Bool) (chunks : List Str) (falses : List Bool),
        (ollamaFrames ((chunks.map chunkLines).flatten)).map (·.done) =
          falses ++ [true] →
        (∀ b ∈ falses, b = false) →
        doneCount (ollamaRun fallback debug chunks) = 1
        ∧ (ollamaRun fallback debug chunks).getLast?.map (·.done) = some true)
    ∧ (∀ (ord : AnthTools → AnthTools) (chunks : List Str) (ls : List Str)
        (lt : Str),
        (chunks.map chunkLines).flatten = ls ++ [lt] →
        (∀ l ∈ ls, anthTerminalLine l = false) → anthTerminalLine lt = true →
        doneCount (anthropicRun ord chunks) = 1
        ∧ (anthropicRun ord chunks).getLast?.map (·.done) = some true) := by
  refine ⟨fun chunks => openaiGo_terminal chunks openaiInit rfl,
    fun fallback debug chunks falses hmap hfalse =>
      ollamaRun_terminal fallback debug chunks falses hmap hfalse,
    fun ord chunks ls lt hflat hls hlt => ?_⟩
  have : anthropicRun ord chunks =
      (anthropicStepLines ord anthInit (ls ++ [lt])).2 := by
    rw [anthropicRun, anthropicGoChunks_flat, hflat]
  rw [this]
  exact anthropicStepLines_terminal_last ord ls lt anthInit hls hlt

/-- C2 witness: the theorem applied to one concrete stream per provider. -/
theorem claim_C2_witness :
    okDoneCount (openaiRun [chars "data: [DONE]\n\n"]) = 1
    ∧ doneCount (ollamaRun false false
        [chars "\x7b\"message\":\x7b\"content\":\"\"\x7d,\"done\":true\x7d\n"]) = 1
    ∧ doneCount (anthropicRun id
        [chars "data: \x7b\"type\":\"message_stop\"\x7d\n"]) = 1 :=
  ⟨(claim_C2_terminal_uniqueness.1 [chars "data: [DONE]\n\n"]).1,
   (claim_C2_terminal_uniqueness.2.1 false false
      [chars "\x7b\"message\":\x7b\"content\":\"\"\x7d,\"done\":true\x7d\n"] []
      (by set_option maxRecDepth 10000 in rfl) (by simp)).1,
   (claim_C2_terminal_uniqueness.2.2 id
      [chars "data: \x7b\"type\":\"message_stop\"\x7d\n"] []
      (chars "data: \x7b\"type\":\"message_stop\"\x7d")
      (by set_option maxRecDepth 10000 in rfl) (by simp)
      (by set_option maxRecDepth 10000 in rfl)).1⟩

/-! ## Claim C3 (amended): resolution of accumulated argument strings -/

/-- In a map whose keys are distinct, one key determines its value. -/
theorem anthKeys_unique (tools : AnthTools) :
    (tools.map Prod.fst).Nodup →
    ∀ (k : Str) (v1 v2 : Str × Str), (k, v1) ∈ tools → (k, v2) ∈ tools →
    v1 = v2 := by
  induction tools with
  | nil => intro _ k v1 v2 h1 _; exact absurd h1 (by simp)
  | cons e rest ih =>
    obtain ⟨k0, w⟩ := e
    intro hnd k v1 v2 h1 h2
    rw [List.map_cons, List.nodup_cons] at hnd
    rcases List.mem_cons.mp h1 with he1 | ht1 <;>
      rcases List.mem_cons.mp h2 with he2 | ht2
    · simp only [Prod.mk.injEq] at he1 he2
      exact he1.2.trans he2.2.symm
    · simp only [Prod.mk.injEq] at he1
      have hkm : k ∈ List.map Prod.fst rest := by
        simpa using List.mem_map_of_mem Prod.fst ht2
      exact absurd (he1.1 ▸ hkm) hnd.1
    · simp only [Prod.mk.injEq] at he2
      have hkm : k ∈ List.map Prod.fst rest := by
        simpa using List.mem_map_of_mem Prod.fst ht1
      exact absurd (he2.1 ▸ hkm) hnd.1
    · exact ih hnd.2 k v1 v2 ht1 ht2

/-- C3 (amended): at resolution, the Anthropic accumulator drops exactly
the slots whose concatenated argument string fails to parse as JSON —
other slots are unaffected, for any map iteration order; the OpenAI
processor keeps every accumulated slot in the terminal set, and a slot
with an unparsable accumulated string is kept with its arguments left
unchanged at the initial JSON `null` rather than dropped. -/
theorem claim_C3_invalid_argument_resolution :
    (∀ (ord : AnthTools → AnthTools), (∀ l, (ord l).Perm l) →
      ∀ (tools : AnthTools) (idv nm args : Str),
      (idv, (nm, args)) ∈ tools → (tools.map Prod.fst).Nodup →
      ((Json.parse args = none →
          ∀ tc ∈ anthropicDrainCompleted ord tools, tc.id ≠ some idv)
       ∧ (∀ v, Json.parse args = some v →
          ToolCall.mk (some idv) ⟨nm, v⟩ ∈ anthropicDrainCompleted ord tools)))
    ∧ (∀ (st : OpenAIState) (i : Nat) (tc : ToolCall),
        (i, tc) ∈ st.accumulated_tool_calls →
        ∃ l, openaiFinalize st = some l ∧ openaiResolve st (i, tc) ∈ l)
    ∧ (∀ (st : OpenAIState) (i : Nat) (tc : ToolCall) (s : Str),
        st.accumulating_tool_args.lookup i = some s → Json.parse s = none →
        openaiResolve st (i, tc) = tc) := by
  refine ⟨fun ord hperm tools idv nm args hmem hnd => ⟨?_, ?_⟩,
    fun st i tc hmem => ?_, fun st i tc s hs hparse => ?_⟩
  · intro hparse tc htc hid
    obtain ⟨e, he, hfe⟩ := List.mem_filterMap.mp htc
    obtain ⟨v, hv, htc2⟩ := Option.map_eq_some'.mp hfe
    have hid2 : e.1 = idv := by
      rw [← htc2] at hid
      exact Option.some.inj hid
    have he2 : (idv, e.2) ∈ tools := by
      rw [← hid2]
      exact (hperm tools).mem_iff.mp (by rwa [Prod.mk.eta])
    have := anthKeys_unique tools hnd idv e.2 (nm, args) he2 hmem
    rw [this] at hv
    rw [hv] at hparse
    exact Option.noConfusion hparse
  · intro v hv
    refine List.mem_filterMap.mpr ⟨(idv, (nm, args)),
      (hperm tools).mem_iff.mpr hmem, ?_⟩
    simp [hv]
  · have hne : st.accumulated_tool_calls ≠ [] := List.ne_nil_of_mem hmem
    refine ⟨st.accumulated_tool_calls.map (openaiResolve st), ?_, ?_⟩
    · unfold openaiFinalize
      rw [if_neg (by simpa [List.isEmpty_iff] using hne)]
    · exact List.mem_map_of_mem (openaiResolve st) hmem
  · by_cases hs0 : s = [] <;> simp [openaiResolve, hs, hparse, hs0]

/-- C3 witness: a parsable slot survives the Anthropic drain, and an
OpenAI slot with an unparsable accumulated string resolves to itself. -/
theorem claim_C3_witness :
    ToolCall.mk (some (chars "t1")) ⟨chars "f", .obj []⟩ ∈
      anthropicDrainCompleted id [(chars "t1", (chars "f", chars "\x7b\x7d"))]
    ∧ openaiResolve
        { openaiInit with accumulating_tool_args := [(0, chars "x")] }
        (0, ToolCall.mk none ⟨chars "f", Json.null⟩) =
      ToolCall.mk none ⟨chars "f", Json.null⟩ :=
  ⟨((claim_C3_invalid_argument_resolution.1 id (fun l => List.Perm.refl l)
      [(chars "t1", (chars "f", chars "\x7b\x7d"))]
      (chars "t1") (chars "f") (chars "\x7b\x7d")
      (by simp) (by simp)).2 (.obj []) rfl),
   claim_C3_invalid_argument_resolution.2.2
      { openaiInit with accumulating_tool_args := [(0, chars "x")] }
      0 (ToolCall.mk none ⟨chars "f", Json.null⟩) (chars "x") rfl rfl⟩

/-! ## Claim C9: the streaming tag filter -/

/-- Bridge between the boolean prefix test and the prefix relation. -/
theorem isPrefixOfB_iff (a b : Str) : a.isPrefixOf b = true ↔ a <+: b :=
  List.isPrefixOf_iff_prefix

/-- Re-aligning on a window none of whose suffixes is the whole opening
marker emits a prefix of the window, keeps the rest as a proper prefix of
the marker, and does not enter the tag. -/
theorem settleOpen_no_match (op : Str) (hop : op ≠ []) :
    ∀ (cand em : Str), (∀ s : Str, s <:+ cand → s ≠ op) →
    ∃ d, cand = d ++ (settleOpen op em cand).2.1
      ∧ (settleOpen op em cand).1 = em ++ d
      ∧ (settleOpen op em cand).2.2 = false
      ∧ (settleOpen op em cand).2.1 <+: op
      ∧ (settleOpen op em cand).2.1 ≠ op := by
  intro cand
  induction cand generalizing op with
  | nil =>
    intro em _
    have hne : ¬([] : Str) = op := fun h => hop h.symm
    refine ⟨[], ?_⟩
    simp [settleOpen, hne]
  | cons h t ih =>
    intro em hs
    have hne : ¬(h :: t = op) := hs (h :: t) (List.suffix_refl _)
    by_cases hp : (h :: t).isPrefixOf op
    · refine ⟨[], ?_⟩
      simp [settleOpen, hne, hp, (isPrefixOfB_iff _ _).mp hp]
    · have heq : settleOpen op em (h :: t) = settleOpen op (em ++ [h]) t := by
        rw [settleOpen, if_neg hne, if_neg (by simpa using hp)]
      obtain ⟨d, hd1, hd2, hd3, hd4, hd5⟩ := ih op hop (em ++ [h])
        (fun s hsuf => hs s (hsuf.trans (List.suffix_cons h t)))
      refine ⟨h :: d, ?_, ?_, ?_, ?_, ?_⟩
      · rw [heq, List.cons_append, ← hd1]
      · rw [heq, hd2, List.append_assoc]
        rfl
      · rw [heq]; exact hd3
      · rw [heq]; exact hd4
      · rw [heq]; exact hd5

/-- When the window equals the opening marker, the automaton enters the
tag. -/
theorem settleOpen_of_eq (op em cand : Str) (hcand : cand = op)
    (hne : cand ≠ []) : settleOpen op em cand = (em, [], true) := by
  cases cand with
  | nil => exact absurd rfl hne
  | cons h t => rw [settleOpen, if_pos hcand]

/-- When the window is a proper prefix of the marker, it is held whole. -/
theorem settleOpen_of_proper (op em cand : Str) (hne : cand ≠ op)
    (hpre : cand <+: op) : settleOpen op em cand = (em, cand, false) := by
  cases cand with
  | nil => simp [settleOpen, fun h => hne h]
  | cons h t =>
    rw [settleOpen, if_neg hne,
      if_pos ((isPrefixOfB_iff _ _).mpr hpre)]

/-- A suffix stays a suffix under appending one character on the right. -/
theorem suffix_append_one {l m : Str} (c : Char) (h : l <:+ m) :
    l ++ [c] <:+ m ++ [c] := by
  obtain ⟨w, hw⟩ := h
  exact ⟨w, by rw [← hw, List.append_assoc]⟩

/-- Unfolding equation for one outside-mode step of the automaton. -/
theorem processChar_outside (op cl : Str) (held raw : Str) (c : Char) :
    XmlFilter.processChar op cl ⟨false, held, raw⟩ c =
      (if (settleOpen op [] (held ++ [c])).2.2 then
        (⟨true, [], raw ++ op⟩, (settleOpen op [] (held ++ [c])).1)
       else (⟨false, (settleOpen op [] (held ++ [c])).2.1, raw⟩,
             (settleOpen op [] (held ++ [c])).1)) := rfl

/-- Unfolding equation for one inside-mode step of the automaton. -/
theorem processChar_inside (op cl : Str) (held raw : Str) (c : Char) :
    XmlFilter.processChar op cl ⟨true, held, raw⟩ c =
      (if held ++ [c] = cl then (⟨false, [], raw ++ [c]⟩, [])
       else if (held ++ [c]).isPrefixOf cl then
         (⟨true, held ++ [c], raw ++ [c]⟩, [])
       else (⟨true, dropToPrefixOf cl (held ++ [c]), raw ++ [c]⟩, [])) := rfl

/-- Unfolding equation for processing one more character. -/
theorem processChars_cons (op cl : Str) (st : XmlFilter) (c : Char) (cs : Str) :
    XmlFilter.processChars op cl st (c :: cs) =
      ((XmlFilter.processChars op cl (st.processChar op cl c).1 cs).1,
       (st.processChar op cl c).2 ++
         (XmlFilter.processChars op cl (st.processChar op cl c).1 cs).2) := rfl

/-- Processing a text with no occurrence of the opening marker stays
outside the tag and withholds exactly a partial-marker suffix: the
emitted output plus the held window is the input. -/
theorem filterOutside (op cl : Str) (hop : op ≠ []) (total : Str)
    (hfree : ∀ s : Str, s <:+: total → s ≠ op) :
    ∀ (rest consumed held raw : Str),
    consumed ++ rest = total →
    held <:+ consumed → held <+: op → held ≠ op →
    (XmlFilter.processChars op cl ⟨false, held, raw⟩ rest).1.inTag = false
    ∧ (XmlFilter.processChars op cl ⟨false, held, raw⟩ rest).2 ++
        (XmlFilter.processChars op cl ⟨false, held, raw⟩ rest).1.held =
      held ++ rest := by
  intro rest
  induction rest with
  | nil =>
    intro consumed held raw _ _ _ _
    simp [XmlFilter.processChars]
  | cons c rs ih =>
    intro consumed held raw htotal hsuf hpre hne
    have hsettle := settleOpen_no_match op hop (held ++ [c]) []
      (fun s hsfx hs => by
        have h1 : s <:+ consumed ++ [c] := hsfx.trans (suffix_append_one c hsuf)
        obtain ⟨w, hw⟩ := h1
        have : s <:+: total := by
          refine ⟨w, rs, ?_⟩
          rw [← htotal, hw]
          simp
        exact hfree s this hs)
    obtain ⟨d, hd1, hd2, hd3, hd4, hd5⟩ := hsettle
    generalize hk : (settleOpen op [] (held ++ [c])).2.1 = kept at hd1 hd4 hd5
    have hsp : settleOpen op [] (held ++ [c]) = (d, kept, false) := by
      have hx : settleOpen op [] (held ++ [c]) =
          ((settleOpen op [] (held ++ [c])).1,
           (settleOpen op [] (held ++ [c])).2.1,
           (settleOpen op [] (held ++ [c])).2.2) := rfl
      rw [hx, hd2, hd3, hk]
      simp
    have hstep : XmlFilter.processChars op cl ⟨false, held, raw⟩ (c :: rs) =
        ((XmlFilter.processChars op cl ⟨false, kept, raw⟩ rs).1,
         d ++ (XmlFilter.processChars op cl ⟨false, kept, raw⟩ rs).2) := by
      rw [processChars_cons, processChar_outside, hsp]
      simp
    have hsuf1 : kept <:+ consumed ++ [c] :=
      List.IsSuffix.trans ⟨d, hd1.symm⟩ (suffix_append_one c hsuf)
    have hih := ih (consumed ++ [c]) kept raw
      (by rw [← htotal]; simp) hsuf1 hd4 hd5
    rw [hstep]
    refine ⟨hih.1, ?_⟩
    rw [List.append_assoc, hih.2, ← List.append_assoc, ← hd1]
    simp

/-- Output and state of character processing compose over concatenation. -/
theorem processChars_append (op cl : Str) (a : Str) :
    ∀ (b : Str) (st : XmlFilter),
    XmlFilter.processChars op cl st (a ++ b) =
      ((XmlFilter.processChars op cl
          (XmlFilter.processChars op cl st a).1 b).1,
       (XmlFilter.processChars op cl st a).2 ++
         (XmlFilter.processChars op cl
          (XmlFilter.processChars op cl st a).1 b).2) := by
  induction a with
  | nil => intro b st; simp [XmlFilter.processChars]
  | cons c cs ih =>
    intro b st
    simp only [List.cons_append, XmlFilter.processChars, List.append_eq, ih,
      List.append_assoc]

/-- Folding the filter over chunks equals processing the flattened text:
the automaton is resumable across chunk boundaries. -/
theorem filterFold_flatten (op cl : Str) (chunks : List Str) :
    ∀ st, filterFold op cl st chunks =
      XmlFilter.processChars op cl st chunks.flatten := by
  induction chunks with
  | nil => intro st; rfl
  | cons c cs ih =>
    intro st
    simp only [filterFold, XmlFilter.process_chunk, List.flatten_cons,
      processChars_append, ih]

/-- Consuming the whole opening marker from a held proper prefix enters
the tag, emits nothing, and records the marker in the raw buffer. -/
theorem filterConsumeOpen (op cl : Str) :
    ∀ (suf pre raw : Str), op = pre ++ suf → suf ≠ [] →
    XmlFilter.processChars op cl ⟨false, pre, raw⟩ suf =
      (⟨true, [], raw ++ op⟩, []) := by
  intro suf
  induction suf with
  | nil => intro pre raw _ hne; exact absurd rfl hne
  | cons c rs ih =>
    intro pre raw hop _
    cases rs with
    | nil =>
      have hcand : pre ++ [c] = op := hop.symm
      have hsettle := settleOpen_of_eq op [] (pre ++ [c]) hcand (by simp)
      rw [processChars_cons, processChar_outside, hsettle]
      simp [XmlFilter.processChars]
    | cons c2 rs2 =>
      have hne : pre ++ [c] ≠ op := by
        intro h
        have := congrArg List.length h
        rw [hop] at this
        simp at this
      have hpre : pre ++ [c] <+: op := ⟨c2 :: rs2, by rw [hop]; simp⟩
      have hsettle := settleOpen_of_proper op [] (pre ++ [c]) hne hpre
      have hstep := ih (pre ++ [c]) raw (by rw [hop]; simp) (by simp)
      rw [processChars_cons, processChar_outside, hsettle]
      simp [hstep]

/-- A prefix of a one-element list is empty or the list itself. -/
theorem prefix_of_singleton {a : Char} {l : Str} (h : l <+: [a]) :
    l = [] ∨ l = [a] := by
  obtain ⟨t, ht⟩ := h
  cases l with
  | nil => exact Or.inl rfl
  | cons x xs =>
    simp only [List.cons_append] at ht
    injection ht with e1 e2
    subst e1
    have h2 := List.append_eq_nil.mp e2
    exact Or.inr (by rw [h2.1])

/-- Re-alignment after a mismatch, when every character of the stale part
of the window differs from the marker's head: only a fresh head character
can restart a match, so the window collapses to it (or to nothing). -/
theorem dropToPrefixOf_all_ne (c0 : Char) (ctail : Str) :
    ∀ (s : Str) (c : Char), (∀ x ∈ s, x ≠ c0) →
    dropToPrefixOf (c0 :: ctail) (s ++ [c]) =
      if c = c0 then [c0] else [] := by
  intro s
  induction s with
  | nil =>
    intro c _
    by_cases hc : c = c0
    · subst hc
      simp [dropToPrefixOf, List.isPrefixOf]
    · simp [dropToPrefixOf, List.isPrefixOf, hc]
  | cons x s2 ih =>
    intro c hall
    have hx : x ≠ c0 := hall x (by simp)
    have hrec := ih c (fun y hy => hall y (by simp [hy]))
    simp [dropToPrefixOf, List.isPrefixOf, hx, hrec]

/-- Inside the tag, a text containing no occurrence of the closing marker
is fully suppressed and recorded in the raw buffer, for a closing marker
whose head character does not recur in its tail; the automaton stays
inside the tag, holding some proper prefix of the closing marker. -/
theorem filterBodyGen (op : Str) (c0 : Char) (ctail : Str)
    (h0 : c0 ∉ ctail) :
    ∀ (body pre raw : Str), pre <+: (c0 :: ctail) → pre ≠ c0 :: ctail →
    ¬ (c0 :: ctail) <:+: (pre ++ body) →
    ∃ pre2, pre2 <+: (c0 :: ctail) ∧ pre2 ≠ c0 :: ctail ∧
      XmlFilter.processChars op (c0 :: ctail) ⟨true, pre, raw⟩ body =
        (⟨true, pre2, raw ++ body⟩, []) := by
  intro body
  induction body with
  | nil =>
    intro pre raw hp hne _
    exact ⟨pre, hp, hne, by simp [XmlFilter.processChars]⟩
  | cons c rest ih =>
    intro pre raw hp hne hinf
    have hcand_ne : pre ++ [c] ≠ c0 :: ctail := by
      intro h
      exact hinf ⟨[], rest, by rw [← h]; simp⟩
    by_cases hpre : (pre ++ [c]).isPrefixOf (c0 :: ctail)
    · have hp2 : (pre ++ [c]) <+: (c0 :: ctail) := (isPrefixOfB_iff _ _).mp hpre
      have hinf2 : ¬ (c0 :: ctail) <:+: ((pre ++ [c]) ++ rest) := by
        simpa [List.append_assoc] using hinf
      obtain ⟨pre2, q1, q2, q3⟩ := ih (pre ++ [c]) (raw ++ [c]) hp2 hcand_ne hinf2
      refine ⟨pre2, q1, q2, ?_⟩
      rw [processChars_cons, processChar_inside, if_neg hcand_ne, if_pos hpre]
      simp [q3, List.append_assoc]
    · have hdrop : dropToPrefixOf (c0 :: ctail) (pre ++ [c]) =
          if c = c0 then [c0] else [] := by
        cases pre with
        | nil =>
          have hc : ¬ c = c0 := fun h => hpre (by simp [List.isPrefixOf, h])
          simp [dropToPrefixOf, List.isPrefixOf, hc]
        | cons p0 ptl =>
          obtain ⟨t, ht⟩ := hp
          simp only [List.cons_append] at ht
          injection ht with h1 h2
          subst p0
          have hptl : ∀ x ∈ ptl, x ≠ c0 := by
            intro x hx hxe
            subst x
            exact h0 (by rw [← h2]; simp [hx])
          simp only [List.cons_append, dropToPrefixOf]
          rw [if_neg (by simpa using hpre)]
          exact dropToPrefixOf_all_ne c0 ctail ptl c hptl
      by_cases hc : c = c0
      · have hdrop2 : dropToPrefixOf (c0 :: ctail) (pre ++ [c]) = [c0] := by
          rw [hdrop, if_pos hc]
        have hct : ctail ≠ [] := by
          intro h
          subst h
          rcases prefix_of_singleton hp with hpe | hpe
          · exact hpre (by simp [hpe, hc, List.isPrefixOf])
          · exact hne hpe
        have hq1 : ([c0] : Str) <+: (c0 :: ctail) := ⟨ctail, rfl⟩
        have hq2 : ([c0] : Str) ≠ c0 :: ctail := by
          intro h
          injection h with _ h2
          exact hct h2.symm
        have hsuf : ((c0 :: rest : Str)) <:+ (pre ++ (c :: rest)) := by
          rw [← hc]
          exact List.suffix_append pre (c :: rest)
        have hinf2 : ¬ (c0 :: ctail) <:+: ([c0] ++ rest) := by
          intro hx
          exact hinf (hx.trans hsuf.isInfix)
        obtain ⟨pre2, q1, q2, q3⟩ := ih [c0] (raw ++ [c]) hq1 hq2 hinf2
        refine ⟨pre2, q1, q2, ?_⟩
        rw [processChars_cons, processChar_inside, if_neg hcand_ne,
          if_neg hpre, hdrop2]
        simp [q3, List.append_assoc]
      · have hdrop2 : dropToPrefixOf (c0 :: ctail) (pre ++ [c]) = [] := by
          rw [hdrop, if_neg hc]
        have hq1 : ([] : Str) <+: (c0 :: ctail) := ⟨c0 :: ctail, rfl⟩
        have hq2 : ([] : Str) ≠ c0 :: ctail := by simp
        have hsuf : rest <:+ (pre ++ (c :: rest)) :=
          List.IsSuffix.trans ⟨[c], rfl⟩ (List.suffix_append pre (c :: rest))
        have hinf2 : ¬ (c0 :: ctail) <:+: (([] : Str) ++ rest) := by
          intro hx
          exact hinf (hx.trans hsuf.isInfix)
        obtain ⟨pre2, q1, q2, q3⟩ := ih [] (raw ++ [c]) hq1 hq2 hinf2
        refine ⟨pre2, q1, q2, ?_⟩
        rw [processChars_cons, processChar_inside, if_neg hcand_ne,
          if_neg hpre, hdrop2]
        simp [q3, List.append_assoc]

/-- Consuming the whole closing marker from a held proper prefix leaves
the tag, emits nothing, and records the marker in the raw buffer. -/
theorem filterConsumeClose (op cl : Str) :
    ∀ (suf pre raw : Str), cl = pre ++ suf → suf ≠ [] →
    XmlFilter.processChars op cl ⟨true, pre, raw⟩ suf =
      (⟨false, [], raw ++ suf⟩, []) := by
  intro suf
  induction suf with
  | nil => intro pre raw _ hne; exact absurd rfl hne
  | cons c rs ih =>
    intro pre raw hcl _
    cases rs with
    | nil =>
      have hcand : pre ++ [c] = cl := hcl.symm
      rw [processChars_cons, processChar_inside, if_pos hcand]
      simp [XmlFilter.processChars]
    | cons c2 rs2 =>
      have hne : pre ++ [c] ≠ cl := by
        intro h
        have := congrArg List.length h
        rw [hcl] at this
        simp at this
      have hpre : (pre ++ [c]).isPrefixOf cl := by
        exact (isPrefixOfB_iff _ _).mpr ⟨c2 :: rs2, by rw [hcl]; simp⟩
      have hstep := ih (pre ++ [c]) (raw ++ [c]) (by rw [hcl]; simp) (by simp)
      rw [processChars_cons, processChar_inside, if_neg hne, if_pos hpre]
      rw [hstep]
      simp

/-- From any held proper prefix of the closing marker, consuming the full
closing marker exits the tag exactly at its last character, emits nothing,
and records the marker in the raw buffer — for a closing marker whose head
character does not recur in its tail, so no stale window and no self
overlap can complete the marker early. -/
theorem filterCloseDH (op : Str) (c0 : Char) (ctail : Str)
    (h0 : c0 ∉ ctail) :
    ∀ (pre raw : Str), pre <+: (c0 :: ctail) → pre ≠ c0 :: ctail →
    XmlFilter.processChars op (c0 :: ctail) ⟨true, pre, raw⟩ (c0 :: ctail) =
      (⟨false, [], raw ++ (c0 :: ctail)⟩, []) := by
  intro pre raw hp hne
  cases pre with
  | nil =>
    cases ctail with
    | nil =>
      simp [XmlFilter.processChars, XmlFilter.processChar]
    | cons d dt =>
      have h1 : ¬(([] : Str) ++ [c0] = c0 :: d :: dt) := by simp
      have h2 : (([] : Str) ++ [c0]).isPrefixOf (c0 :: d :: dt) = true := by
        simp [List.isPrefixOf]
      have hstep := filterConsumeClose op (c0 :: d :: dt) (d :: dt) [c0]
        (raw ++ [c0]) (by simp) (by simp)
      rw [processChars_cons, processChar_inside, if_neg h1, if_pos h2]
      simp [hstep, List.append_assoc]
  | cons p0 ptl =>
    obtain ⟨t, ht⟩ := hp
    simp only [List.cons_append] at ht
    injection ht with h1 h2
    subst p0
    have hptl : ∀ x ∈ ptl, x ≠ c0 := by
      intro x hx hxe
      subst x
      exact h0 (by rw [← h2]; simp [hx])
    have hct : ctail ≠ [] := by
      intro h
      subst h
      have h3 := List.append_eq_nil.mp h2
      exact hne (by rw [h3.1])
    have hcne : ¬((c0 :: ptl) ++ [c0] = c0 :: ctail) := by
      intro h
      simp only [List.cons_append] at h
      injection h with _ h3
      exact h0 (by rw [← h3]; simp)
    have hcp : ¬((c0 :: ptl) ++ [c0]).isPrefixOf (c0 :: ctail) = true := by
      intro h
      have h4 := (isPrefixOfB_iff _ _).mp h
      simp only [List.cons_append] at h4
      have h5 : (ptl ++ [c0] : Str) <+: ctail := by
        obtain ⟨w, hw⟩ := h4
        injection hw with _ h6
        exact ⟨w, h6⟩
      exact h0 (h5.subset (by simp))
    have hdrop : dropToPrefixOf (c0 :: ctail) ((c0 :: ptl) ++ [c0]) = [c0] := by
      simp only [List.cons_append, dropToPrefixOf]
      rw [if_neg (by simpa using hcp)]
      have h7 := dropToPrefixOf_all_ne c0 ctail ptl c0 hptl
      simpa using h7
    obtain ⟨d, dt, hdt⟩ : ∃ d dt, ctail = d :: dt := by
      cases ctail with
      | nil => exact absurd rfl hct
      | cons d dt => exact ⟨d, dt, rfl⟩
    subst hdt
    have hstep := filterConsumeClose op (c0 :: d :: dt) (d :: dt) [c0]
      (raw ++ [c0]) (by simp) (by simp)
    rw [processChars_cons, processChar_inside, if_neg hcne, if_neg hcp, hdrop]
    simp [hstep, List.append_assoc]

/-- A text fully wrapped in one matched marker pair — the body free of any
occurrence of the closing marker, whose head character does not recur in
its tail — filters, under any chunking, to empty displayed output at every
chunk boundary (so no partial marker is ever emitted), with the full
original span retained in the raw accumulation buffer. -/
theorem filterWrapped (op : Str) (c0 : Char) (ctail : Str) (hop : op ≠ [])
    (h0 : c0 ∉ ctail) (body : Str) (chunks : List Str)
    (hnc : ¬ (c0 :: ctail) <:+: body)
    (hflat : chunks.flatten = op ++ body ++ (c0 :: ctail)) :
    (∀ pfx, pfx <+: chunks →
      (filterFold op (c0 :: ctail) XmlFilter.new pfx).2 = [])
    ∧ runFilter op (c0 :: ctail) chunks = []
    ∧ (filterFold op (c0 :: ctail) XmlFilter.new chunks).1.raw =
        op ++ body ++ (c0 :: ctail) := by
  have h1 : XmlFilter.processChars op (c0 :: ctail) XmlFilter.new op =
      (⟨true, [], op⟩, []) := by
    simpa [XmlFilter.new] using
      filterConsumeOpen op (c0 :: ctail) op [] [] (by simp) hop
  obtain ⟨pre2, hp1, hp2, h2⟩ := filterBodyGen op c0 ctail h0 body [] op
    ⟨c0 :: ctail, rfl⟩ (by simp) (by simpa using hnc)
  have h3 := filterCloseDH op c0 ctail h0 pre2 (op ++ body) hp1 hp2
  have hall : XmlFilter.processChars op (c0 :: ctail) XmlFilter.new
      (op ++ body ++ (c0 :: ctail)) =
      (⟨false, [], op ++ body ++ (c0 :: ctail)⟩, []) := by
    rw [List.append_assoc]
    simp [processChars_append, h1, h2, h3, List.append_assoc]
  refine ⟨?_, ?_, ?_⟩
  · intro pfx hpfx
    obtain ⟨rest, hrest⟩ := hpfx
    have e1 : (filterFold op (c0 :: ctail) XmlFilter.new chunks).2 = [] := by
      rw [filterFold_flatten, hflat, hall]
    simp only [← hrest, filterFold_flatten, List.flatten_append,
      processChars_append] at e1
    rw [filterFold_flatten]
    exact (List.append_eq_nil.mp e1).1
  · have hrf : runFilter op (c0 :: ctail) chunks =
        (filterFold op (c0 :: ctail) XmlFilter.new chunks).2 ++
          (if (filterFold op (c0 :: ctail) XmlFilter.new chunks).1.inTag
           then [] else
             (filterFold op (c0 :: ctail) XmlFilter.new chunks).1.held) := rfl
    rw [hrf, filterFold_flatten, hflat, hall]
    simp
  · rw [filterFold_flatten, hflat, hall]

/-- C9: (spec-modelled `StreamingXmlFilter`) running the streaming filter
over a text with no occurrence of the opening marker, split into chunks in
any way, returns the text unchanged; a text fully wrapped in one matched
pair of the configured markers — the body free of any occurrence of the
closing marker — filters, in any chunking, to displayed output that is
empty after every chunk (so no partial marker is ever emitted to the
caller), while the full original span is retained in the raw accumulation
buffer. -/
theorem claim_C9_streaming_filter :
    (∀ (op cl text : Str) (chunks : List Str), op ≠ [] →
      chunks.flatten = text → ¬ op <:+: text →
      runFilter op cl chunks = text)
    ∧ (∀ (body : Str) (chunks : List Str),
      ¬ closeMarker <:+: body →
      chunks.flatten = openMarker ++ body ++ closeMarker →
      (∀ pfx, pfx <+: chunks →
        (filterFold openMarker closeMarker XmlFilter.new pfx).2 = [])
      ∧ runFilter openMarker closeMarker chunks = []
      ∧ (filterFold openMarker closeMarker XmlFilter.new chunks).1.raw =
          openMarker ++ body ++ closeMarker) := by
  constructor
  · intro op cl text chunks hop hflat hfree
    have hrun := filterOutside op cl hop text
      (fun s hs hseq => hfree (by rw [← hseq]; exact hs))
      text [] [] [] (by simp) (List.suffix_refl _) (by simp)
      (fun h => hop h.symm)
    have hrf : runFilter op cl chunks =
        (filterFold op cl XmlFilter.new chunks).2 ++
          (if (filterFold op cl XmlFilter.new chunks).1.inTag then []
           else (filterFold op cl XmlFilter.new chunks).1.held) := rfl
    rw [hrf, filterFold_flatten, hflat]
    simp only [XmlFilter.new]
    rw [hrun.1]
    simpa using hrun.2
  · intro body chunks hnc hflat
    have hcm : closeMarker = '<' :: chars "/tool_call>" := rfl
    rw [hcm] at hnc hflat ⊢
    exact filterWrapped openMarker '<' (chars "/tool_call>")
      (by decide) (by decide) body chunks hnc hflat

/-- C9 witness: marker-free text passes unchanged across a chunk split; a
span wrapped in the configured markers — with a body containing the
markers' head character and the closing marker split across chunks —
filters to nothing, with empty display at an intermediate chunk boundary
and the original span recoverable. -/
theorem claim_C9_witness :
    runFilter (chars "<tag>") (chars "</tag>") [chars "hel", chars "lo"] =
      chars "hello"
    ∧ runFilter openMarker closeMarker
        [chars "<tool_", chars "call>a<b</to", chars "ol_call>"] = []
    ∧ (filterFold openMarker closeMarker XmlFilter.new
        [chars "<tool_", chars "call>a<b</to", chars "ol_call>"]).1.raw =
        chars "<tool_call>a<b</tool_call>"
    ∧ (filterFold openMarker closeMarker XmlFilter.new
        [chars "<tool_", chars "call>a<b</to"]).2 = [] := by
  have h2 := (claim_C9_streaming_filter.2 (chars "a<b")
    [chars "<tool_", chars "call>a<b</to", chars "ol_call>"]
    (by decide) (by decide))
  refine ⟨claim_C9_streaming_filter.1 (chars "<tag>") (chars "</tag>")
    (chars "hello") [chars "hel", chars "lo"] (by simp [chars]) (by decide)
    (by decide), h2.2.1, h2.2.2.trans (by decide), ?_⟩
  exact h2.1 [chars "<tool_", chars "call>a<b</to"] ⟨[chars "ol_call>"], rfl⟩

end Naori
